import Mathlib

/-!
Verification of the mako VOD resolver (`src/mako_vod_final.py`) against its
natural-language specification.  The Python source is shallowly embedded:
strings are `List Char`, byte strings are `List Nat` (each entry < 256),
fallible operations return `Option`, and the two external collaborators that
are not part of this repository (the AES block primitive from pycryptodome
and the network) are abstracted as function parameters.  Everything else
(PKCS#7 padding, CBC chaining, base64, UTF-8, JSON decoding, the extraction
loop, the cache policy and the resolver state machine) is translated
directly from the source.
-/

set_option autoImplicit false
set_option maxRecDepth 10000

namespace Mako

/-! ### PKCS#7 padding (`Crypto.Util.Padding.pad` / `unpad`, block size 16)

`pad` appends `n` copies of the byte `n` where `n = 16 - len % 16` (always
between 1 and 16).  `unpad` validates the length, reads the final byte, checks
the padding run, and strips it; any violation raises in Python, modelled as
`none`. -/

abbrev blockSize : Nat := 16

def pad (data : List Nat) : List Nat :=
  let n := blockSize - data.length % blockSize
  data ++ List.replicate n n

def unpad (data : List Nat) : Option (List Nat) :=
  if data.length = 0 ∨ data.length % blockSize ≠ 0 then none
  else
    match data.getLast? with
    | none => none
    | some n =>
      if 1 ≤ n ∧ n ≤ blockSize ∧ n ≤ data.length ∧
          (data.drop (data.length - n)).all (fun x => x = n) then
        some (data.take (data.length - n))
      else none

/-! ### CBC mode over an abstract block primitive

pycryptodome's `AES.new(key, AES.MODE_CBC, iv)` provides a block permutation;
the AES round function itself is external library code, abstracted here as a
pair of functions `E`/`D` on 16-byte blocks (the round-trip theorem takes the
inverse property as a hypothesis).  CBC chaining, chunking into blocks and the
`% 16` length requirement that `cipher.decrypt` enforces are modelled
concretely. -/

def xorBlock (a b : List Nat) : List Nat := List.zipWith (fun x y => x ^^^ y) a b

def toBlocksGo : Nat → List Nat → List (List Nat)
  | 0, _ => []
  | fuel + 1, l =>
    if l = [] then [] else l.take blockSize :: toBlocksGo fuel (l.drop blockSize)

def toBlocks (l : List Nat) : List (List Nat) := toBlocksGo (l.length + 1) l

def cbcEncryptBlocks (E : List Nat → List Nat) (iv : List Nat) :
    List (List Nat) → List (List Nat)
  | [] => []
  | p :: ps => E (xorBlock p iv) :: cbcEncryptBlocks E (E (xorBlock p iv)) ps

def cbcDecryptBlocks (D : List Nat → List Nat) (iv : List Nat) :
    List (List Nat) → List (List Nat)
  | [] => []
  | c :: cs => xorBlock (D c) iv :: cbcDecryptBlocks D c cs

/-! ### Base64 (`base64.b64encode` / `base64.b64decode`)

CPython's `b64decode` (default `validate=False`) first discards every
character outside the base64 alphabet and `'='`, then requires the remaining
length to be a multiple of 4 and decodes 4-character groups, treating `'='`
only as terminal padding; any violation raises `binascii.Error`, modelled as
`none`. -/

def b64Alphabet : List Char :=
  ['A', 'B', 'C', 'D', 'E', 'F', 'G', 'H', 'I', 'J', 'K', 'L', 'M',
   'N', 'O', 'P', 'Q', 'R', 'S', 'T', 'U', 'V', 'W', 'X', 'Y', 'Z',
   'a', 'b', 'c', 'd', 'e', 'f', 'g', 'h', 'i', 'j', 'k', 'l', 'm',
   'n', 'o', 'p', 'q', 'r', 's', 't', 'u', 'v', 'w', 'x', 'y', 'z',
   '0', '1', '2', '3', '4', '5', '6', '7', '8', '9', '+', '/']

def b64Char (n : Nat) : Char := b64Alphabet.getD n 'A'

def b64IndexAux (c : Char) : List Char → Nat → Option Nat
  | [], _ => none
  | a :: rest, i => if a = c then some i else b64IndexAux c rest (i + 1)

def b64CharIndex (c : Char) : Option Nat := b64IndexAux c b64Alphabet 0

def isB64Sym (c : Char) : Bool := (b64CharIndex c).isSome || c = '='

def b64EncodeBytes : List Nat → List Char
  | b0 :: b1 :: b2 :: rest =>
    b64Char (b0 / 4) :: b64Char (b0 % 4 * 16 + b1 / 16) ::
      b64Char (b1 % 16 * 4 + b2 / 64) :: b64Char (b2 % 64) :: b64EncodeBytes rest
  | [b0, b1] =>
    [b64Char (b0 / 4), b64Char (b0 % 4 * 16 + b1 / 16), b64Char (b1 % 16 * 4), '=']
  | [b0] => [b64Char (b0 / 4), b64Char (b0 % 4 * 16), '=', '=']
  | [] => []

def b64DecodeGroups : List Char → Option (List Nat)
  | c1 :: c2 :: c3 :: c4 :: rest =>
    if c4 = '=' then
      if rest ≠ [] then none
      else if c3 = '=' then
        match b64CharIndex c1, b64CharIndex c2 with
        | some n1, some n2 => some [n1 * 4 + n2 / 16]
        | _, _ => none
      else
        match b64CharIndex c1, b64CharIndex c2, b64CharIndex c3 with
        | some n1, some n2, some n3 =>
          some [n1 * 4 + n2 / 16, n2 % 16 * 16 + n3 / 4]
        | _, _, _ => none
    else
      match b64CharIndex c1, b64CharIndex c2, b64CharIndex c3, b64CharIndex c4 with
      | some n1, some n2, some n3, some n4 =>
        match b64DecodeGroups rest with
        | some bs =>
          some ((n1 * 4 + n2 / 16) :: (n2 % 16 * 16 + n3 / 4) :: (n3 % 4 * 64 + n4) :: bs)
        | none => none
      | _, _, _, _ => none
  | [] => some []
  | _ => none

def b64decode (s : List Char) : Option (List Nat) :=
  let t := s.filter isB64Sym
  if t.length % 4 = 0 then b64DecodeGroups t else none

/-! ### UTF-8 (`str.encode('utf-8')` / `bytes.decode('utf-8')`)

`crypto_op` encodes the plaintext string to UTF-8 bytes before padding and
decodes the unpadded bytes back to a string.  Python's strict codec rejects
stray/missing continuation bytes, overlong forms, surrogate code points and
out-of-range values; every rejection raises, modelled as `none`. -/

def utf8EncodeChar (c : Char) : List Nat :=
  if c.toNat < 0x80 then [c.toNat]
  else if c.toNat < 0x800 then [0xC0 + c.toNat / 64, 0x80 + c.toNat % 64]
  else if c.toNat < 0x10000 then
    [0xE0 + c.toNat / 4096, 0x80 + c.toNat / 64 % 64, 0x80 + c.toNat % 64]
  else
    [0xF0 + c.toNat / 262144, 0x80 + c.toNat / 4096 % 64,
     0x80 + c.toNat / 64 % 64, 0x80 + c.toNat % 64]

def utf8Encode (s : List Char) : List Nat := (s.map utf8EncodeChar).flatten

def isCont (b : Nat) : Bool := decide (0x80 ≤ b ∧ b < 0xC0)

def utf8DecodeOne : List Nat → Option (Nat × List Nat)
  | [] => none
  | b0 :: rest =>
    if b0 < 0x80 then some (b0, rest)
    else if b0 < 0xC0 then none
    else if b0 < 0xE0 then
      match rest with
      | b1 :: rest1 =>
        if isCont b1 ∧ 0x80 ≤ (b0 - 0xC0) * 64 + (b1 - 0x80) then
          some ((b0 - 0xC0) * 64 + (b1 - 0x80), rest1)
        else none
      | [] => none
    else if b0 < 0xF0 then
      match rest with
      | b1 :: b2 :: rest2 =>
        if isCont b1 ∧ isCont b2 ∧
            0x800 ≤ (b0 - 0xE0) * 4096 + (b1 - 0x80) * 64 + (b2 - 0x80) ∧
            ¬(0xD800 ≤ (b0 - 0xE0) * 4096 + (b1 - 0x80) * 64 + (b2 - 0x80) ∧
              (b0 - 0xE0) * 4096 + (b1 - 0x80) * 64 + (b2 - 0x80) < 0xE000) then
          some ((b0 - 0xE0) * 4096 + (b1 - 0x80) * 64 + (b2 - 0x80), rest2)
        else none
      | _ => none
    else if b0 < 0xF8 then
      match rest with
      | b1 :: b2 :: b3 :: rest3 =>
        if isCont b1 ∧ isCont b2 ∧ isCont b3 ∧
            0x10000 ≤ (b0 - 0xF0) * 262144 + (b1 - 0x80) * 4096 +
              (b2 - 0x80) * 64 + (b3 - 0x80) ∧
            (b0 - 0xF0) * 262144 + (b1 - 0x80) * 4096 +
              (b2 - 0x80) * 64 + (b3 - 0x80) < 0x110000 then
          some ((b0 - 0xF0) * 262144 + (b1 - 0x80) * 4096 +
            (b2 - 0x80) * 64 + (b3 - 0x80), rest3)
        else none
      | _ => none
    else none

def utf8DecodeGo : Nat → List Nat → Option (List Char)
  | 0, _ => none
  | fuel + 1, l =>
    match l with
    | [] => some []
    | b0 :: rest =>
      match utf8DecodeOne (b0 :: rest) with
      | some (n, r) =>
        match utf8DecodeGo fuel r with
        | some cs => some (Char.ofNat n :: cs)
        | none => none
      | none => none

def utf8Decode (l : List Nat) : Option (List Char) := utf8DecodeGo (l.length + 1) l

/-! ### `crypto_op` (source lines 72-84)

`crypto_op(data, op, type)` looks up the fixed keyset `CRYPTO[type]`
(`playlist` or `entitlement`; both share the iv `b"theExact16Chars="`), then
either base64-decodes / CBC-decrypts / unpads / UTF-8-decodes, or UTF-8
encodes / pads / CBC-encrypts / base64-encodes.  Any exception is caught and
`None` returned.  The per-block AES permutation (external library) is the
`E`/`D` parameter. -/

def ivBytes : List Nat := (("theExact16Chars=").toList).map Char.toNat

def playlistKeyBytes : List Nat := (("LTf7r/zM2VndHwP+4So6bw==").toList).map Char.toNat

def entitlementKeyBytes : List Nat := (("YhnUaXMmltB6gd8p9SWleQ==").toList).map Char.toNat

def crypto_op_encrypt (E : List Nat → List Nat) (iv : List Nat)
    (s : List Char) : List Char :=
  b64EncodeBytes (cbcEncryptBlocks E iv (toBlocks (pad (utf8Encode s)))).flatten

def crypto_op_decrypt (D : List Nat → List Nat) (iv : List Nat)
    (s : List Char) : Option (List Char) :=
  match b64decode s with
  | none => none
  | some bytes =>
    if bytes.length % blockSize = 0 then
      match unpad (cbcDecryptBlocks D iv (toBlocks bytes)).flatten with
      | none => none
      | some pt => utf8Decode pt
    else none

/-! ### JSON (`json.loads`)

A value type and a recursive-descent parser for the JSON subset that
`json.loads` accepts (strict grammar plus Python's `NaN` / `Infinity`
extension).  Numbers are kept as their lexemes: the program never computes
with them, it only tests truthiness.  `json.loads` errors are modelled as
`none`.  Objects keep their key/value pairs in order; as in a Python dict,
a later duplicate key wins on lookup (`objGet` prefers the last binding). -/

inductive Json : Type where
  | null : Json
  | bool : Bool → Json
  | num : List Char → Json
  | str : List Char → Json
  | arr : List Json → Json
  | obj : List (List Char × Json) → Json

def isJsonWs (c : Char) : Bool := decide (c = ' ' ∨ c = '\t' ∨ c = '\n' ∨ c = '\r')

def skipWs (s : List Char) : List Char := s.dropWhile isJsonWs

def hexVal (c : Char) : Option Nat :=
  if '0' ≤ c ∧ c ≤ '9' then some (c.toNat - 48)
  else if 'a' ≤ c ∧ c ≤ 'f' then some (c.toNat - 87)
  else if 'A' ≤ c ∧ c ≤ 'F' then some (c.toNat - 55)
  else none

def parseStrBody : List Char → Option (List Char × List Char)
  | [] => none
  | c :: rest =>
    if c = '"' then some ([], rest)
    else if c = '\\' then
      match rest with
      | [] => none
      | e :: rest2 =>
        if e = '"' then (parseStrBody rest2).map (fun p => ('"' :: p.1, p.2))
        else if e = '\\' then (parseStrBody rest2).map (fun p => ('\\' :: p.1, p.2))
        else if e = '/' then (parseStrBody rest2).map (fun p => ('/' :: p.1, p.2))
        else if e = 'b' then (parseStrBody rest2).map (fun p => ('\x08' :: p.1, p.2))
        else if e = 'f' then (parseStrBody rest2).map (fun p => ('\x0c' :: p.1, p.2))
        else if e = 'n' then (parseStrBody rest2).map (fun p => ('\n' :: p.1, p.2))
        else if e = 'r' then (parseStrBody rest2).map (fun p => ('\r' :: p.1, p.2))
        else if e = 't' then (parseStrBody rest2).map (fun p => ('\t' :: p.1, p.2))
        else if e = 'u' then
          match rest2 with
          | h1 :: h2 :: h3 :: h4 :: rest6 =>
            match hexVal h1, hexVal h2, hexVal h3, hexVal h4 with
            | some v1, some v2, some v3, some v4 =>
              let n := v1 * 4096 + v2 * 256 + v3 * 16 + v4
              if n < 0xD800 ∨ 0xE000 ≤ n then
                (parseStrBody rest6).map (fun p => (Char.ofNat n :: p.1, p.2))
              else
                -- surrogate range: a high surrogate needs a following low
                -- surrogate escape (a lone surrogate is unrepresentable here)
                match rest6 with
                | '\\' :: 'u' :: g1 :: g2 :: g3 :: g4 :: rest12 =>
                  match hexVal g1, hexVal g2, hexVal g3, hexVal g4 with
                  | some w1, some w2, some w3, some w4 =>
                    let m := w1 * 4096 + w2 * 256 + w3 * 16 + w4
                    if 0xD800 ≤ n ∧ n < 0xDC00 ∧ 0xDC00 ≤ m ∧ m < 0xE000 then
                      (parseStrBody rest12).map (fun p =>
                        (Char.ofNat (0x10000 + (n - 0xD800) * 1024 + (m - 0xDC00))
                          :: p.1, p.2))
                    else none
                  | _, _, _, _ => none
                | _ => none
            | _, _, _, _ => none
          | _ => none
        else none
    else if c.toNat < 0x20 then none
    else (parseStrBody rest).map (fun p => (c :: p.1, p.2))

def parseExpPart : List Char → Option (List Char × List Char)
  | [] => some ([], [])
  | e :: r =>
    if e = 'e' ∨ e = 'E' then
      match r with
      | [] => none
      | sgn :: r2 =>
        if sgn = '+' ∨ sgn = '-' then
          let ds := r2.takeWhile Char.isDigit
          if ds.isEmpty then none
          else some (e :: sgn :: ds, r2.dropWhile Char.isDigit)
        else
          let ds := r.takeWhile Char.isDigit
          if ds.isEmpty then none
          else some (e :: ds, r.dropWhile Char.isDigit)
    else some ([], e :: r)

def parseFracPart : List Char → Option (List Char × List Char)
  | '.' :: r =>
    let ds := r.takeWhile Char.isDigit
    if ds.isEmpty then none else some ('.' :: ds, r.dropWhile Char.isDigit)
  | s => some ([], s)

def parseFracExp (s : List Char) : Option (List Char × List Char) :=
  match parseFracPart s with
  | some (fr, s1) =>
    match parseExpPart s1 with
    | some (ex, s2) => some (fr ++ ex, s2)
    | none => none
  | none => none

def parseNumNoSign : List Char → Option (List Char × List Char)
  | [] => none
  | 'I' :: 'n' :: 'f' :: 'i' :: 'n' :: 'i' :: 't' :: 'y' :: r =>
    some (['I', 'n', 'f', 'i', 'n', 'i', 't', 'y'], r)
  | '0' :: r => (parseFracExp r).map (fun p => ('0' :: p.1, p.2))
  | d :: r =>
    if '1' ≤ d ∧ d ≤ '9' then
      (parseFracExp (r.dropWhile Char.isDigit)).map
        (fun p => (d :: (r.takeWhile Char.isDigit ++ p.1), p.2))
    else none

def parseNumBody : List Char → Option (List Char × List Char)
  | '-' :: r => (parseNumNoSign r).map (fun p => ('-' :: p.1, p.2))
  | s => parseNumNoSign s

mutual

def parseValue : Nat → List Char → Option (Json × List Char)
  | 0, _ => none
  | fuel + 1, s =>
    match skipWs s with
    | [] => none
    | 't' :: 'r' :: 'u' :: 'e' :: r => some (Json.bool true, r)
    | 'f' :: 'a' :: 'l' :: 's' :: 'e' :: r => some (Json.bool false, r)
    | 'n' :: 'u' :: 'l' :: 'l' :: r => some (Json.null, r)
    | 'N' :: 'a' :: 'N' :: r => some (Json.num ['N', 'a', 'N'], r)
    | '"' :: r =>
      match parseStrBody r with
      | some (cs, r2) => some (Json.str cs, r2)
      | none => none
    | '\x7b' :: r =>
      match skipWs r with
      | '\x7d' :: r2 => some (Json.obj [], r2)
      | _ => parseObjItems fuel r []
    | '[' :: r =>
      match skipWs r with
      | ']' :: r2 => some (Json.arr [], r2)
      | _ => parseArrItems fuel r []
    | t =>
      match parseNumBody t with
      | some (lex, r) => some (Json.num lex, r)
      | none => none

def parseArrItems : Nat → List Char → List Json → Option (Json × List Char)
  | 0, _, _ => none
  | fuel + 1, s, acc =>
    match parseValue fuel s with
    | some (v, r) =>
      match skipWs r with
      | ',' :: r2 => parseArrItems fuel r2 (acc ++ [v])
      | ']' :: r2 => some (Json.arr (acc ++ [v]), r2)
      | _ => none
    | none => none

def parseObjItems : Nat → List Char → List (List Char × Json) →
    Option (Json × List Char)
  | 0, _, _ => none
  | fuel + 1, s, acc =>
    match skipWs s with
    | '"' :: r =>
      match parseStrBody r with
      | some (k, r2) =>
        match skipWs r2 with
        | ':' :: r3 =>
          match parseValue fuel r3 with
          | some (v, r4) =>
            match skipWs r4 with
            | ',' :: r5 => parseObjItems fuel r5 (acc ++ [(k, v)])
            | '\x7d' :: r5 => some (Json.obj (acc ++ [(k, v)]), r5)
            | _ => none
          | none => none
        | _ => none
      | none => none
    | _ => none

end

def parseJson (s : List Char) : Option Json :=
  match parseValue (4 * s.length + 4) s with
  | some (v, rest) => if skipWs rest = [] then some v else none
  | none => none

def objGet (k : List Char) : List (List Char × Json) → Option Json
  | [] => none
  | (k2, v) :: rest =>
    match objGet k rest with
    | some r => some r
    | none => if k2 = k then some v else none

def numLexTruthy (l : List Char) : Bool :=
  match l with
  | 'N' :: _ => true
  | 'I' :: _ => true
  | '-' :: 'I' :: _ => true
  | _ => (l.takeWhile (fun c => decide (c ≠ 'e' ∧ c ≠ 'E'))).any
      (fun c => decide ('1' ≤ c ∧ c ≤ '9'))

def pyTruthy : Json → Bool
  | Json.null => false
  | Json.bool b => b
  | Json.num l => numLexTruthy l
  | Json.str s => decide (s ≠ [])
  | Json.arr xs => !xs.isEmpty
  | Json.obj kvs => !kvs.isEmpty

/-! ### Playback Resolver (`get_video_url`, source lines 354-398)

Everything from the successful AJAX fetch onwards is modelled.  Inputs:

* `playlistDec` — the result of `crypto_op(resp.text.strip(), "decrypt",
  "playlist")`: `none` models `crypto_op` returning `None` (line 369 then
  returns `None`);
* `entResp` — the entitlement POST stage: `none` models `request(...)`
  returning `None` (line 384 returns the bare URL); `some entDec` carries the
  result of `crypto_op(resp.text.strip(), "decrypt", "entitlement")`, where
  `entDec = none` models a failed decrypt (line 387 returns the bare URL).

Every exception escaping to the `except` handler of lines 396-398 (a
`json.loads` failure, `.get` on a non-dict, indexing a non-sequence) makes
the whole call return `None`. -/

def mediaKey : List Char := ('m' : Char) :: ['e', 'd', 'i', 'a']

def urlKey : List Char := ['u', 'r', 'l']

def ticketsKey : List Char := ['t', 'i', 'c', 'k', 'e', 't', 's']

def ticketKey : List Char := ['t', 'i', 'c', 'k', 'e', 't']

/-- Rendering of `f"{ticket}"`.  In this program the ticket is always a JSON
string, rendered as itself; the remaining constructors are schematic
renderings of Python's `str()` for completeness (no claim exercises them). -/
def pyStr : Json → List Char
  | Json.str s => s
  | Json.bool true => ['T', 'r', 'u', 'e']
  | Json.bool false => ['F', 'a', 'l', 's', 'e']
  | Json.null => ['N', 'o', 'n', 'e']
  | Json.num l => l
  | Json.arr _ => ['[', ']']
  | Json.obj _ => ['\x7b', '\x7d']

/-- Lines 371-374: `data = json.loads(decrypted)`, `media = data.get('media',
[])`, `hls_url = media[0].get('url') if media and isinstance(media[0], dict)
else None`, `if not hls_url: return None`.  The value is `some url` exactly
when a truthy string URL is reached; every other shape ends in `return None`
(directly, or via an exception caught at line 396 — e.g. `.get` on a
non-dict, `media[0]` on a number, `urlparse` on a non-string). -/
def hlsOf (pl : List Char) : Option (List Char) :=
  match parseJson pl with
  | none => none
  | some (Json.obj kvs) =>
    match objGet mediaKey kvs with
    | some (Json.arr (Json.obj m :: _)) =>
      match objGet urlKey m with
      | some (Json.str u) => if u.isEmpty then none else some u
      | _ => none
    | _ => none
  | some _ => none

inductive TicketRes : Type where
  | exn : TicketRes
  | noTicket : TicketRes
  | ticket : List Char → TicketRes

/-- Lines 390-391: `tickets = data.get('tickets', [])` and
`if tickets and isinstance(tickets[0], dict) and (ticket :=
tickets[0].get('ticket')):`.  `exn` marks the shapes where evaluating
`tickets[0]` raises (truthy dict → `KeyError`, truthy number/bool →
`TypeError`), which the outer handler turns into `None`. -/
def ticketOf (entD : Json) : TicketRes :=
  match entD with
  | Json.obj kvs =>
    match objGet ticketsKey kvs with
    | none => TicketRes.noTicket
    | some (Json.arr []) => TicketRes.noTicket
    | some (Json.arr (Json.obj t0 :: _)) =>
      match objGet ticketKey t0 with
      | none => TicketRes.noTicket
      | some v => if pyTruthy v then TicketRes.ticket (pyStr v) else TicketRes.noTicket
    | some (Json.arr (_ :: _)) => TicketRes.noTicket
    | some (Json.str _) => TicketRes.noTicket
    | some (Json.obj t) => if t.isEmpty then TicketRes.noTicket else TicketRes.exn
    | some (Json.num l) => if numLexTruthy l then TicketRes.exn else TicketRes.noTicket
    | some (Json.bool b) => if b then TicketRes.exn else TicketRes.noTicket
    | some Json.null => TicketRes.noTicket
  | _ => TicketRes.exn

/-- Lines 392-393: `separator = '&' if '?' in hls_url else '?'` and
`return f"{hls_url}{separator}{ticket}"`. -/
def appendTicket (hls t : List Char) : List Char :=
  hls ++ (if hls.contains '?' then '&' :: t else '?' :: t)

def get_video_url_tail (playlistDec : Option (List Char))
    (entResp : Option (Option (List Char))) : Option (List Char) :=
  match playlistDec with
  | none => none
  | some pl =>
    match hlsOf pl with
    | none => none
    | some hls =>
      match entResp with
      | none => some hls
      | some none => some hls
      | some (some ent) =>
        match parseJson ent with
        | none => none
        | some entD =>
          match ticketOf entD with
          | TicketRes.exn => none
          | TicketRes.noTicket => some hls
          | TicketRes.ticket t => some (appendTicket hls t)

/-! ### Extraction engine (`extract_content`, source lines 219-328)

A DOM element is abstracted to the four values the per-type field rules can
read from it: its `href` attribute (bs4's `get('href', '')` — the empty
string when absent), the stripped-to-be text of a nested `strong.title` /
`span` / the `alt` of a nested `img` (`none` when `select_one` finds no such
child, in which case the field is skipped).  `urljoin` models
`urllib.parse.urljoin` for the URL shapes this program produces (absolute
URLs, `//`-protocol-relative, `/`-rooted and bare relative references). -/

inductive ContentType : Type where
  | shows : ContentType
  | seasons : ContentType
  | episodes : ContentType
deriving DecidableEq

structure Elem where
  href : List Char
  titleText : Option (List Char)
  imgAlt : Option (List Char)
  spanText : Option (List Char)
deriving DecidableEq

structure Item where
  name : Option (List Char)
  url : Option (List Char)
  guid : Option (List Char)
  temp_name : Option (List Char)
deriving DecidableEq

def isPySpace (c : Char) : Bool :=
  decide (c = ' ' ∨ c = '\t' ∨ c = '\n' ∨ c = '\r' ∨ c = '\x0b' ∨ c = '\x0c')

def pyStrip (s : List Char) : List Char :=
  ((s.dropWhile isPySpace).reverse.dropWhile isPySpace).reverse

def findSchemeSplit : List Char → Option (List Char × List Char)
  | [] => none
  | ':' :: '/' :: '/' :: rest => some ([':', '/', '/'], rest)
  | c :: rest =>
    match findSchemeSplit rest with
    | some (p, r) => some (c :: p, r)
    | none => none

def schemeHostOf (base : List Char) : List Char :=
  match findSchemeSplit base with
  | some (p, r) => p ++ r.takeWhile (fun c => decide (c ≠ '/'))
  | none => []

def schemeColonOf (base : List Char) : List Char :=
  match findSchemeSplit base with
  | some (p, _) => p.take (p.length - 2)
  | none => []

def hasScheme (rel : List Char) : Bool :=
  !(rel.takeWhile Char.isAlpha).isEmpty &&
    (match rel.dropWhile Char.isAlpha with
     | ':' :: _ => true
     | _ => false)

def dirOf (base : List Char) : List Char :=
  (base.reverse.dropWhile (fun c => decide (c ≠ '/'))).reverse

def urljoin (base rel : List Char) : List Char :=
  if rel.isEmpty then base
  else if hasScheme rel then rel
  else
    match rel with
    | '/' :: '/' :: _ => schemeColonOf base ++ rel
    | '/' :: _ => schemeHostOf base ++ rel
    | _ => dirOf base ++ rel

def isWordDash (c : Char) : Bool := c.isAlphanum || c = '_' || c = '-'

def startsDotHtm : List Char → Bool
  | '.' :: 'h' :: 't' :: 'm' :: _ => true
  | _ => false

/-- Model of `re.search(r'/VOD-([\w-]+)\.htm', value)` (case sensitive): scan left to
right, at each `/VOD-` take the maximal `[\w-]+` run and require `.htm` right
after it (`.` is not a word character, so the greedy run cannot backtrack
past a later split). -/
def vodGuidSearch : List Char → Option (List Char)
  | [] => none
  | '/' :: rest =>
    (match rest with
     | 'V' :: 'O' :: 'D' :: '-' :: rest2 =>
       let run := rest2.takeWhile isWordDash
       if !run.isEmpty && startsDotHtm (rest2.dropWhile isWordDash) then some run
       else vodGuidSearch rest
     | _ => vodGuidSearch rest)
  | _ :: rest => vodGuidSearch rest

def stripCI : List Char → List Char → Option (List Char)
  | [], s => some s
  | _ :: _, [] => none
  | p :: ps, c :: cs => if c.toLower = p then stripCI ps cs else none

/-- Model of `re.search(r'[?&](guid|videoGuid)=([\w-]+)', url, re.I)`: scan for a `?`
or `&`, then try the alternatives in order (they differ in the first letter,
so at most one can start at a given position), case-insensitively, and
capture the nonempty `[\w-]+` run after the `=`. -/
def findGuidParam : List Char → Option (List Char)
  | [] => none
  | c :: rest =>
    if c = '?' ∨ c = '&' then
      match stripCI ['g', 'u', 'i', 'd', '='] rest with
      | some tail =>
        let run := tail.takeWhile isWordDash
        if !run.isEmpty then some run else findGuidParam rest
      | none =>
        match stripCI ['v', 'i', 'd', 'e', 'o', 'g', 'u', 'i', 'd', '='] rest with
        | some tail =>
          let run := tail.takeWhile isWordDash
          if !run.isEmpty then some run else findGuidParam rest
        | none => findGuidParam rest
    else findGuidParam rest

/-- One pass of the field loop of lines 254-272 for one element.  A field is
present in the item exactly when its extracted value is truthy.  For the
`guid` field (episodes), when the `/VOD-…\.htm` regex does not match, the
*raw attribute value* remains in `value` and is stored (`if value:
item[field] = value` at line 272). -/
def extractFields : ContentType → List Char → Elem → Item
  | ContentType.shows, base, e =>
    { url := if e.href.isEmpty then none else some (urljoin base e.href),
      temp_name := match e.imgAlt with
        | some a => if a.isEmpty then none else some a
        | none => none,
      name := none, guid := none }
  | ContentType.seasons, base, e =>
    { name := match e.spanText with
        | some t => if (pyStrip t).isEmpty then none else some (pyStrip t)
        | none => none,
      url := if e.href.isEmpty then none else some (urljoin base e.href),
      guid := none, temp_name := none }
  | ContentType.episodes, base, e =>
    { name := match e.titleText with
        | some t => if (pyStrip t).isEmpty then none else some (pyStrip t)
        | none => none,
      url := if e.href.isEmpty then none else some (urljoin base e.href),
      guid := if e.href.isEmpty then none
        else match vodGuidSearch e.href with
          | some g => some g
          | none => some e.href,
      temp_name := none }

def fieldCount (ct : ContentType) (it : Item) : Nat :=
  match ct with
  | ContentType.shows =>
    (if it.url.isSome then 1 else 0) + (if it.temp_name.isSome then 1 else 0)
  | ContentType.seasons =>
    (if it.name.isSome then 1 else 0) + (if it.url.isSome then 1 else 0)
  | ContentType.episodes =>
    (if it.name.isSome then 1 else 0) + (if it.url.isSome then 1 else 0) +
      (if it.guid.isSome then 1 else 0)

def numFields : ContentType → Nat
  | ContentType.shows => 2
  | ContentType.seasons => 2
  | ContentType.episodes => 3

/-- Line 274: `if len(item) == len(config['fields']) or (content_type ==
'shows' and 'url' in item)`. -/
def acceptItem (ct : ContentType) (it : Item) : Bool :=
  fieldCount ct it = numFields ct || (ct = ContentType.shows && it.url.isSome)

/-- Line 275: `key = item.get('guid', item.get('url', ''))`. -/
def guidKey (it : Item) : List Char :=
  match it.guid with
  | some g => g
  | none => match it.url with
    | some u => u
    | none => []

/-- Line 278: `item['name'] = item.pop('temp_name', 'Unknown Show')`. -/
def renameShow (it : Item) : Item :=
  { it with
    name := some (match it.temp_name with
      | some t => t
      | none => ("Unknown Show").toList),
    temp_name := none }

/-- The accept/dedup loop of lines 253-280 with its `seen` set. -/
def buildLoop (ct : ContentType) (base : List Char) :
    List Elem → List (List Char) → List Item
  | [], _ => []
  | e :: rest, seen =>
    let it := extractFields ct base e
    if acceptItem ct it then
      let k := guidKey it
      if !k.isEmpty && !seen.contains k then
        (if ct = ContentType.shows then renameShow it else it)
          :: buildLoop ct base rest (k :: seen)
      else buildLoop ct base rest seen
    else buildLoop ct base rest seen

/-- Lines 283-288: the episode guid fallback and the final guid filter. -/
def guidFallbackItem (it : Item) : Item :=
  match it.guid with
  | some _ => it
  | none =>
    match it.url with
    | none => it
    | some u =>
      match findGuidParam u with
      | some g => { it with guid := some g }
      | none => it

def episodesPostPass (items : List Item) : List Item :=
  (items.map guidFallbackItem).filter (fun it => it.guid.isSome)

def extract_content_items (ct : ContentType) (base : List Char)
    (elems : List Elem) : List Item :=
  let items := buildLoop ct base elems []
  if ct = ContentType.episodes then episodesPostPass items else items

/-! ### Show-name cache policy (source lines 95-103, 165-216, 291-326)

`extract_show_name` performs network I/O and DOM parsing of external pages;
it is abstracted as the oracle `fetch : url → Option name` (`none` = the
fetch failed; either way `request` was issued for that URL, which is what the
returned `fetched` list records).  Time is an explicit `Int` parameter
(`time.time()`). -/

structure ShowItem where
  url : List Char
  name : List Char
deriving DecidableEq

structure NameCache where
  timestamp : Int
  shows : List (List Char × List Char)
deriving DecidableEq

def CACHE_TTL : Int := 30 * 24 * 60 * 60

def lookupShow (k : List Char) : List (List Char × List Char) → Option (List Char)
  | [] => none
  | (k2, v) :: rest => if k2 = k then some v else lookupShow k rest

def insertShow (k v : List Char) :
    List (List Char × List Char) → List (List Char × List Char)
  | [] => [(k, v)]
  | (k2, v2) :: rest =>
    if k2 = k then (k, v) :: rest else (k2, v2) :: insertShow k v rest

/-- Line 294: `cache_is_fresh = time.time() - cache.get("timestamp", 0) <
CACHE_TTL`. -/
def cache_is_fresh (now ts : Int) : Bool := decide (now - ts < CACHE_TTL)

/-- Lines 95-103: an absent file (`readResult = none`) and a failing
`json.load` (`readResult = some none`) both yield `{"timestamp":
time.time(), "shows": {}}`. -/
def load_cache (readResult : Option (Option NameCache)) (now : Int) : NameCache :=
  match readResult with
  | some (some c) => c
  | _ => { timestamp := now, shows := [] }

/-- Python `shows[:m]` (line 172), including negative slice ends. -/
def pythonTake (l : List ShowItem) (m : Int) : List ShowItem :=
  if m < 0 then l.take (((l.length : Int) + m).toNat) else l.take m.toNat

/-- Lines 170-173: `if max_shows and max_shows < len(shows): shows_to_process
= shows[:max_shows]`.  `max_shows` is `None` or an `int`; `0` is falsy. -/
def shows_to_process (shows : List ShowItem) (max_shows : Option Int) :
    List ShowItem :=
  match max_shows with
  | none => shows
  | some m =>
    if m ≠ 0 ∧ m < (shows.length : Int) then pythonTake shows m else shows

/-- The per-show loop of lines 179-214: use the (possibly already updated)
cache when it holds the URL and is fresh, otherwise issue a fetch; a
successful fetch updates the show's name and the cache, a failed one leaves
the name alone.  Returns (updated shows, updated cache mapping, fetched
URLs in order). -/
def processLoop (fetch : List Char → Option (List Char)) (fresh : Bool) :
    List ShowItem → List (List Char × List Char) →
    List ShowItem × List (List Char × List Char) × List (List Char)
  | [], m => ([], m, [])
  | s :: rest, m =>
    match (if fresh then lookupShow s.url m else none) with
    | some n =>
      let r := processLoop fetch fresh rest m
      ({ s with name := n } :: r.1, r.2.1, r.2.2)
    | none =>
      match fetch s.url with
      | some n =>
        let r := processLoop fetch fresh rest (insertShow s.url n m)
        ({ s with name := n } :: r.1, r.2.1, s.url :: r.2.2)
      | none =>
        let r := processLoop fetch fresh rest m
        (s :: r.1, r.2.1, s.url :: r.2.2)

def process_show_names (fetch : List Char → Option (List Char))
    (shows : List ShowItem) (cacheShows : List (List Char × List Char))
    (fresh : Bool) (max_shows : Option Int) :
    List ShowItem × List (List Char × List Char) × List (List Char) :=
  processLoop fetch fresh (shows_to_process shows max_shows) cacheShows

/-- Lines 299-302 / 308-312: apply cached names to every show whose URL is in
the cache. -/
def applyCached (cacheShows : List (List Char × List Char))
    (items : List ShowItem) : List ShowItem :=
  items.map (fun s =>
    match lookupShow s.url cacheShows with
    | some n => { s with name := n }
    | none => s)

/-- In Python `to_fetch` holds references into `items` and
`process_show_names` mutates those dicts in place; functionally, the
processed prefix is merged back over the items satisfying the filter, in
order. -/
def mergeBack (p : ShowItem → Bool) :
    List ShowItem → List ShowItem → List ShowItem
  | [], _ => []
  | it :: rest, proc =>
    if p it then
      match proc with
      | pr :: prRest => pr :: mergeBack p rest prRest
      | [] => it :: mergeBack p rest []
    else it :: mergeBack p rest proc

/-- The `content_type == 'shows'` post-processing of `extract_content`
(lines 291-326): bypass branch (`skip_name_fetch`) applies cached names only
when the cache is fresh and never fetches; the normal branch applies cached
names when fresh, computes `to_fetch`, and runs `process_show_names` under
the requested cap.  Returns the final item list and the URLs for which a
name fetch was issued. -/
def resolveShowNames (fetch : List Char → Option (List Char)) (now : Int)
    (cache : NameCache) (skip : Bool) (max_shows : Option Int)
    (items : List ShowItem) : List ShowItem × List (List Char) :=
  let fresh := cache_is_fresh now cache.timestamp
  if skip then
    (if fresh then applyCached cache.shows items else items, [])
  else
    let items2 := if fresh then applyCached cache.shows items else items
    let toF := items2.filter
      (fun s => !(fresh && (lookupShow s.url cache.shows).isSome))
    let proc := process_show_names fetch toF cache.shows fresh max_shows
    (mergeBack (fun s => !(fresh && (lookupShow s.url cache.shows).isSome))
      items2 proc.1,
     proc.2.2)

/-! ### Concrete instances used by witnesses and counterexamples -/

def cryptoE0 (b : List Nat) : List Nat :=
  ((b.map (fun x => x % 256)) ++ List.replicate blockSize 0).take blockSize

def cryptoD0 (b : List Nat) : List Nat := b

def ivZero : List Nat := List.replicate blockSize 0

def plC : List Char :=
  ("\x7b\"media\":[\x7b\"url\":\"https://cdn.example/stream.m3u8\"\x7d]\x7d").toList

def entC : List Char :=
  ("\x7b\"tickets\":[\x7b\"ticket\":\"tkt=abc123\"\x7d]\x7d").toList

def hlsC : List Char := ("https://cdn.example/stream.m3u8").toList

def resC : List Char := ("https://cdn.example/stream.m3u8?tkt=abc123").toList

def junkC : List Char := ("oops").toList

def plQ : List Char :=
  ("\x7b\"media\":[\x7b\"url\":\"https://cdn.example/a.m3u8?x=1\"\x7d]\x7d").toList

def hlsQ : List Char := ("https://cdn.example/a.m3u8?x=1").toList

def tktC : List Char := ("tkt=abc123").toList

def entNoT : List Char := ("\x7b\"tickets\":[]\x7d").toList

def entNoTD : Json := Json.obj [(ticketsKey, Json.arr [])]

def entD1 : Json :=
  Json.obj [(ticketsKey, Json.arr [Json.obj [(ticketKey, Json.str tktC)]])]

def baseC : List Char := ("https://www.mako.co.il/show").toList

def epElemC : Elem :=
  { href := ("/x?foo=bar").toList, titleText := some (("Ep").toList),
    imgAlt := none, spanText := none }

def epItemC : Item :=
  { name := some (("Ep").toList),
    url := some (("https://www.mako.co.il/x?foo=bar").toList),
    guid := some (("/x?foo=bar").toList), temp_name := none }

def epElemC2 : Elem :=
  { href := ("/x?foo=bar").toList, titleText := some (("Ep2").toList),
    imgAlt := none, spanText := none }

def uC : List Char := ("https://www.mako.co.il/mako-vod-a").toList

def unkC : List Char := ("Unknown Show").toList

def realC : List Char := ("Real Name").toList

def staleCacheC : NameCache := { timestamp := 0, shows := [(uC, realC)] }

def fetchNone : List Char → Option (List Char) := fun _ => none

def s0C : ShowItem := { url := uC, name := unkC }

def s1C : ShowItem := { url := ("https://www.mako.co.il/mako-vod-b").toList, name := unkC }

def s2C : ShowItem := { url := ("https://www.mako.co.il/mako-vod-c").toList, name := unkC }

/-! ## Claims -/

def renameIf (ct : ContentType) (it : Item) : Item :=
  if ct = ContentType.shows then renameShow it else it

def candidates (ct : ContentType) (base : List Char) (elems : List Elem) :
    List Item :=
  ((elems.map (extractFields ct base)).filter (acceptItem ct)).map (renameIf ct)

/-! ## Theorems -/

theorem pad_length_mod (data : List Nat) : (pad data).length % blockSize = 0 := by
  simp only [pad, blockSize, List.length_append, List.length_replicate]
  have h : data.length % 16 < 16 := Nat.mod_lt _ (by omega)
  omega

theorem replicate_getLast? (n x : Nat) (h : 1 ≤ n) :
    (List.replicate n x).getLast? = some x := by
  cases n with
  | zero => omega
  | succ m =>
    rw [List.replicate_succ']
    simp

theorem unpad_pad (data : List Nat) : unpad (pad data) = some data := by
  have hlt : data.length % 16 < 16 := Nat.mod_lt _ (by omega)
  have hn1 : 1 ≤ 16 - data.length % 16 := by omega
  have hpad : pad data =
      data ++ List.replicate (16 - data.length % 16) (16 - data.length % 16) := rfl
  have hlen : (pad data).length = data.length + (16 - data.length % 16) := by
    simp [hpad]
  have hlast : (pad data).getLast? = some (16 - data.length % 16) := by
    rw [hpad, List.getLast?_append, replicate_getLast? _ _ hn1]
    simp
  have hsub : (pad data).length - (16 - data.length % 16) = data.length := by omega
  have hdrop : (pad data).drop (data.length) =
      List.replicate (16 - data.length % 16) (16 - data.length % 16) := by
    rw [hpad, List.drop_left]
  have htake : (pad data).take (data.length) = data := by
    rw [hpad, List.take_left]
  have hmod : (pad data).length % 16 = 0 := pad_length_mod data
  rw [unpad]
  rw [if_neg (by simp only [blockSize]; omega)]
  rw [hlast]
  simp only [blockSize, hsub, hdrop, htake]
  rw [if_pos]
  · refine ⟨hn1, by omega, by omega, ?_⟩
    simp

theorem toBlocksGo_congr (f1 : Nat) : ∀ (f2 : Nat) (l : List Nat),
    l.length < f1 → l.length < f2 → toBlocksGo f1 l = toBlocksGo f2 l := by
  induction f1 with
  | zero => intro f2 l h1 _; omega
  | succ f1 ih =>
    intro f2 l h1 h2
    cases f2 with
    | zero => omega
    | succ f2 =>
      rw [toBlocksGo, toBlocksGo]
      by_cases hl : l = []
      · rw [if_pos hl, if_pos hl]
      · rw [if_neg hl, if_neg hl]
        have hne : l.length ≠ 0 := fun hh => hl (List.eq_nil_of_length_eq_zero hh)
        have hd : (l.drop blockSize).length < l.length := by
          simp only [List.length_drop, blockSize]
          omega
        rw [ih f2 (l.drop blockSize) (by omega) (by omega)]

theorem toBlocks_unfold (l : List Nat) :
    toBlocks l = if l = [] then [] else l.take blockSize :: toBlocks (l.drop blockSize) := by
  rw [toBlocks, toBlocksGo]
  by_cases hl : l = []
  · rw [if_pos hl, if_pos hl]
  · rw [if_neg hl, if_neg hl]
    have hne : l.length ≠ 0 := fun hh => hl (List.eq_nil_of_length_eq_zero hh)
    have hd : (l.drop blockSize).length < l.length := by
      simp only [List.length_drop, blockSize]
      omega
    rw [toBlocks]
    rw [toBlocksGo_congr l.length ((l.drop blockSize).length + 1) (l.drop blockSize)
      (by omega) (by omega)]

theorem xorBlock_cancel (p iv : List Nat) (h : p.length ≤ iv.length) :
    xorBlock (xorBlock p iv) iv = p := by
  induction p generalizing iv with
  | nil => simp [xorBlock]
  | cons x xs ih =>
    cases iv with
    | nil => simp at h
    | cons y ys =>
      simp only [List.length_cons] at h
      simp only [xorBlock, List.zipWith_cons_cons] at *
      rw [Nat.xor_cancel_right]
      rw [ih ys (by omega)]

theorem xorBlock_length (p iv : List Nat) :
    (xorBlock p iv).length = min p.length iv.length := by
  simp [xorBlock]

theorem xorBlock_lt (p iv : List Nat) (hp : ∀ x ∈ p, x < 256)
    (hiv : ∀ x ∈ iv, x < 256) : ∀ x ∈ xorBlock p iv, x < 256 := by
  induction p generalizing iv with
  | nil => simp [xorBlock]
  | cons a as ih =>
    cases iv with
    | nil => simp [xorBlock]
    | cons b bs =>
      intro x hx
      simp only [xorBlock, List.zipWith_cons_cons, List.mem_cons] at hx
      rcases hx with h | h
      · subst h
        have ha : a < 2 ^ 8 := by
          have := hp a (by simp)
          omega
        have hb : b < 2 ^ 8 := by
          have := hiv b (by simp)
          omega
        have := Nat.xor_lt_two_pow ha hb
        omega
      · exact ih bs (fun y hy => hp y (by simp [hy]))
          (fun y hy => hiv y (by simp [hy])) x h

theorem cbcDecrypt_cbcEncrypt (E D : List Nat → List Nat)
    (hElen : ∀ b, (E b).length = blockSize)
    (hEb : ∀ b, ∀ x ∈ E b, x < 256)
    (hD : ∀ b, b.length = blockSize → (∀ x ∈ b, x < 256) → D (E b) = b) :
    ∀ (ps : List (List Nat)) (iv : List Nat), iv.length = blockSize →
      (∀ x ∈ iv, x < 256) →
      (∀ p ∈ ps, p.length = blockSize ∧ ∀ x ∈ p, x < 256) →
      cbcDecryptBlocks D iv (cbcEncryptBlocks E iv ps) = ps := by
  intro ps
  induction ps with
  | nil => intro iv _ _ _; rfl
  | cons p ps ih =>
    intro iv hivlen hivb hps
    obtain ⟨hple, hpb⟩ := hps p (by simp)
    have hxlen : (xorBlock p iv).length = blockSize := by
      rw [xorBlock_length, hple, hivlen]; simp
    have hxb : ∀ x ∈ xorBlock p iv, x < 256 := xorBlock_lt p iv hpb hivb
    rw [cbcEncryptBlocks, cbcDecryptBlocks]
    rw [hD _ hxlen hxb]
    rw [xorBlock_cancel p iv (by omega)]
    rw [ih (E (xorBlock p iv)) (hElen _) (hEb _)
      (fun q hq => hps q (by simp [hq]))]

theorem flatten_toBlocks (l : List Nat) : (toBlocks l).flatten = l := by
  by_cases h : l = []
  · subst h
    rw [toBlocks_unfold]
    simp
  · rw [toBlocks_unfold, if_neg h, List.flatten_cons, flatten_toBlocks (l.drop blockSize)]
    exact List.take_append_drop _ _
termination_by l.length
decreasing_by
  have hne : l.length ≠ 0 := fun hh => h (List.eq_nil_of_length_eq_zero hh)
  simp only [List.length_drop, blockSize]
  omega

theorem toBlocks_length (l : List Nat) (h : l.length % blockSize = 0) :
    ∀ b ∈ toBlocks l, b.length = blockSize := by
  by_cases hl : l = []
  · subst hl
    rw [toBlocks_unfold]
    simp
  · intro b hb
    have hlen : l.length ≠ 0 := fun hh => hl (List.eq_nil_of_length_eq_zero hh)
    have h16 : blockSize ≤ l.length := by
      simp only [blockSize] at h ⊢
      omega
    rw [toBlocks_unfold, if_neg hl] at hb
    rcases List.mem_cons.mp hb with hb1 | hb2
    · subst hb1
      rw [List.length_take]
      omega
    · refine toBlocks_length (l.drop blockSize) ?_ b hb2
      simp only [List.length_drop, blockSize] at *
      omega
termination_by l.length
decreasing_by
  simp only [List.length_drop, blockSize]
  omega

theorem toBlocks_bytes (l : List Nat) (h : ∀ x ∈ l, x < 256) :
    ∀ b ∈ toBlocks l, ∀ x ∈ b, x < 256 := by
  by_cases hl : l = []
  · subst hl
    rw [toBlocks_unfold]
    simp
  · intro b hb
    rw [toBlocks_unfold, if_neg hl] at hb
    rcases List.mem_cons.mp hb with hb1 | hb2
    · subst hb1
      intro x hx
      exact h x (List.mem_of_mem_take hx)
    · refine toBlocks_bytes (l.drop blockSize)
        (fun x hx => h x (List.mem_of_mem_drop hx)) b hb2
termination_by l.length
decreasing_by
  have hne : l.length ≠ 0 := fun hh => hl (List.eq_nil_of_length_eq_zero hh)
  simp only [List.length_drop, blockSize]
  omega

theorem toBlocks_flatten (bs : List (List Nat))
    (h : ∀ b ∈ bs, b.length = blockSize) : toBlocks bs.flatten = bs := by
  induction bs with
  | nil =>
    rw [List.flatten_nil, toBlocks_unfold]
    simp
  | cons b rest ih =>
    have hb : b.length = blockSize := h b (by simp)
    have hbne : b ++ rest.flatten ≠ [] := by
      intro hh
      have hbnil : b = [] := by
        cases b with
        | nil => rfl
        | cons y ys => simp at hh
      rw [hbnil] at hb
      simp [blockSize] at hb
    rw [List.flatten_cons, toBlocks_unfold, if_neg hbne]
    rw [List.take_left' hb, List.drop_left' hb]
    rw [ih (fun q hq => h q (by simp [hq]))]

theorem cbcEncrypt_blocks_props (E : List Nat → List Nat)
    (hElen : ∀ b, (E b).length = blockSize)
    (hEb : ∀ b, ∀ x ∈ E b, x < 256) :
    ∀ (ps : List (List Nat)) (iv : List Nat),
      ∀ c ∈ cbcEncryptBlocks E iv ps, c.length = blockSize ∧ ∀ x ∈ c, x < 256 := by
  intro ps
  induction ps with
  | nil => simp [cbcEncryptBlocks]
  | cons p rest ih =>
    intro iv c hc
    rw [cbcEncryptBlocks] at hc
    rcases List.mem_cons.mp hc with h1 | h2
    · subst h1
      exact ⟨hElen _, hEb _⟩
    · exact ih _ c h2

theorem b64CharIndex_b64Char : ∀ n, n < 64 → b64CharIndex (b64Char n) = some n := by
  decide

theorem b64Char_ne_pad : ∀ n, b64Char n ≠ '=' := by
  intro n
  by_cases h : n < 64
  · revert n
    decide
  · rw [b64Char, List.getD_eq_default]
    · decide
    · simp only [b64Alphabet, List.length]
      omega

theorem isB64Sym_b64Char : ∀ n, isB64Sym (b64Char n) = true := by
  intro n
  by_cases h : n < 64
  · revert n
    decide
  · rw [b64Char, List.getD_eq_default]
    · decide
    · simp only [b64Alphabet, List.length]
      omega

theorem b64EncodeBytes_sym (bs : List Nat) :
    ∀ c ∈ b64EncodeBytes bs, isB64Sym c = true := by
  match bs with
  | [] => simp [b64EncodeBytes]
  | [b0] =>
    simp only [b64EncodeBytes, List.mem_cons]
    intro c hc
    rcases hc with h | h | h | h
    · rw [h]; exact isB64Sym_b64Char _
    · rw [h]; exact isB64Sym_b64Char _
    · rw [h]; decide
    · simp at h
      rw [h]
      decide
  | [b0, b1] =>
    simp only [b64EncodeBytes, List.mem_cons]
    intro c hc
    rcases hc with h | h | h | h
    · rw [h]; exact isB64Sym_b64Char _
    · rw [h]; exact isB64Sym_b64Char _
    · rw [h]; exact isB64Sym_b64Char _
    · simp at h
      rw [h]
      decide
  | b0 :: b1 :: b2 :: rest =>
    simp only [b64EncodeBytes, List.mem_cons]
    intro c hc
    rcases hc with h | h | h | h | h
    · rw [h]; exact isB64Sym_b64Char _
    · rw [h]; exact isB64Sym_b64Char _
    · rw [h]; exact isB64Sym_b64Char _
    · rw [h]; exact isB64Sym_b64Char _
    · exact b64EncodeBytes_sym rest c h

theorem b64EncodeBytes_filter (bs : List Nat) :
    (b64EncodeBytes bs).filter isB64Sym = b64EncodeBytes bs :=
  List.filter_eq_self.mpr (b64EncodeBytes_sym bs)

theorem b64EncodeBytes_length (bs : List Nat) :
    (b64EncodeBytes bs).length % 4 = 0 := by
  match bs with
  | [] => rfl
  | [b0] => simp [b64EncodeBytes]
  | [b0, b1] => simp [b64EncodeBytes]
  | b0 :: b1 :: b2 :: rest =>
    simp only [b64EncodeBytes, List.length_cons]
    have := b64EncodeBytes_length rest
    omega

theorem b64DecodeGroups_encode (bs : List Nat) (h : ∀ b ∈ bs, b < 256) :
    b64DecodeGroups (b64EncodeBytes bs) = some bs := by
  match bs with
  | [] => rfl
  | [b0] =>
    have hb0 : b0 < 256 := h b0 (by simp)
    show b64DecodeGroups
      [b64Char (b0 / 4), b64Char (b0 % 4 * 16), '=', '='] = some [b0]
    rw [b64DecodeGroups]
    rw [b64CharIndex_b64Char (b0 / 4) (by omega)]
    rw [b64CharIndex_b64Char (b0 % 4 * 16) (by omega)]
    simp only [if_pos rfl, ne_eq, not_true_eq_false, if_false, ite_false, ite_true]
    simp only [Option.some.injEq, List.cons.injEq, and_true]
    omega
  | [b0, b1] =>
    have hb0 : b0 < 256 := h b0 (by simp)
    have hb1 : b1 < 256 := h b1 (by simp)
    show b64DecodeGroups
      [b64Char (b0 / 4), b64Char (b0 % 4 * 16 + b1 / 16), b64Char (b1 % 16 * 4), '=']
      = some [b0, b1]
    rw [b64DecodeGroups]
    rw [b64CharIndex_b64Char (b0 / 4) (by omega)]
    rw [b64CharIndex_b64Char (b0 % 4 * 16 + b1 / 16) (by omega)]
    rw [b64CharIndex_b64Char (b1 % 16 * 4) (by omega)]
    rw [if_neg (b64Char_ne_pad (b1 % 16 * 4))]
    simp only [if_pos rfl, ne_eq, not_true_eq_false, if_false, ite_false, ite_true]
    simp only [Option.some.injEq, List.cons.injEq, and_true]
    omega
  | b0 :: b1 :: b2 :: rest =>
    have hb0 : b0 < 256 := h b0 (by simp)
    have hb1 : b1 < 256 := h b1 (by simp)
    have hb2 : b2 < 256 := h b2 (by simp)
    have ih := b64DecodeGroups_encode rest (fun b hb => h b (by simp [hb]))
    show b64DecodeGroups
      (b64Char (b0 / 4) :: b64Char (b0 % 4 * 16 + b1 / 16) ::
        b64Char (b1 % 16 * 4 + b2 / 64) :: b64Char (b2 % 64) :: b64EncodeBytes rest)
      = some (b0 :: b1 :: b2 :: rest)
    rw [b64DecodeGroups]
    rw [if_neg (b64Char_ne_pad (b2 % 64))]
    rw [b64CharIndex_b64Char (b0 / 4) (by omega)]
    rw [b64CharIndex_b64Char (b0 % 4 * 16 + b1 / 16) (by omega)]
    rw [b64CharIndex_b64Char (b1 % 16 * 4 + b2 / 64) (by omega)]
    rw [b64CharIndex_b64Char (b2 % 64) (by omega)]
    rw [ih]
    simp only [Option.some.injEq, List.cons.injEq, and_true]
    refine ⟨by omega, by omega, by omega⟩

theorem b64decode_encode (bs : List Nat) (h : ∀ b ∈ bs, b < 256) :
    b64decode (b64EncodeBytes bs) = some bs := by
  rw [b64decode]
  simp only [b64EncodeBytes_filter]
  rw [if_pos (b64EncodeBytes_length bs)]
  exact b64DecodeGroups_encode bs h

theorem utf8EncodeChar_bytes (c : Char) : ∀ x ∈ utf8EncodeChar c, x < 256 := by
  have hv : c.toNat < 0xd800 ∨ (0xdfff < c.toNat ∧ c.toNat < 0x110000) := c.valid
  intro x hx
  rw [utf8EncodeChar] at hx
  by_cases h1 : c.toNat < 0x80
  · rw [if_pos h1] at hx
    simp at hx
    omega
  · rw [if_neg h1] at hx
    by_cases h2 : c.toNat < 0x800
    · rw [if_pos h2] at hx
      simp at hx
      have hd : c.toNat / 64 < 32 := by omega
      have hm : c.toNat % 64 < 64 := by omega
      omega
    · rw [if_neg h2] at hx
      by_cases h3 : c.toNat < 0x10000
      · rw [if_pos h3] at hx
        simp at hx
        have hd : c.toNat / 4096 < 16 := by omega
        have hm1 : c.toNat / 64 % 64 < 64 := by omega
        have hm2 : c.toNat % 64 < 64 := by omega
        omega
      · rw [if_neg h3] at hx
        simp at hx
        have hlt : c.toNat < 0x110000 := by omega
        have hd : c.toNat / 262144 < 5 := by omega
        have hm0 : c.toNat / 4096 % 64 < 64 := by omega
        have hm1 : c.toNat / 64 % 64 < 64 := by omega
        have hm2 : c.toNat % 64 < 64 := by omega
        omega

theorem utf8Encode_bytes (s : List Char) : ∀ x ∈ utf8Encode s, x < 256 := by
  induction s with
  | nil => simp [utf8Encode]
  | cons c cs ih =>
    intro x hx
    simp only [utf8Encode, List.map_cons, List.flatten_cons, List.mem_append] at hx
    rcases hx with h | h
    · exact utf8EncodeChar_bytes c x h
    · exact ih x (by simpa [utf8Encode] using h)

theorem utf8DecodeOne_shrinks (l : List Nat) (n : Nat) (r : List Nat)
    (h : utf8DecodeOne l = some (n, r)) : r.length < l.length := by
  match l with
  | [] => simp [utf8DecodeOne] at h
  | b0 :: rest =>
    rw [utf8DecodeOne.eq_def] at h
    simp only at h
    by_cases h1 : b0 < 0x80
    · rw [if_pos h1] at h
      simp only [Option.some.injEq, Prod.mk.injEq] at h
      rw [← h.2]
      simp
    · rw [if_neg h1] at h
      by_cases h2 : b0 < 0xC0
      · rw [if_pos h2] at h
        simp at h
      · rw [if_neg h2] at h
        by_cases h3 : b0 < 0xE0
        · rw [if_pos h3] at h
          match rest with
          | [] => simp at h
          | b1 :: rest1 =>
            simp only at h
            split at h
            · simp only [Option.some.injEq, Prod.mk.injEq] at h
              rw [← h.2]
              simp
              omega
            · simp at h
        · rw [if_neg h3] at h
          by_cases h4 : b0 < 0xF0
          · rw [if_pos h4] at h
            match rest with
            | [] => simp at h
            | [b1] => simp at h
            | b1 :: b2 :: rest2 =>
              simp only at h
              split at h
              · simp only [Option.some.injEq, Prod.mk.injEq] at h
                rw [← h.2]
                simp
                omega
              · simp at h
          · rw [if_neg h4] at h
            by_cases h5 : b0 < 0xF8
            · rw [if_pos h5] at h
              match rest with
              | [] => simp at h
              | [b1] => simp at h
              | [b1, b2] => simp at h
              | b1 :: b2 :: b3 :: rest3 =>
                simp only at h
                split at h
                · simp only [Option.some.injEq, Prod.mk.injEq] at h
                  rw [← h.2]
                  simp
                  omega
                · simp at h
            · rw [if_neg h5] at h
              simp at h

theorem utf8DecodeGo_congr (f1 : Nat) : ∀ (f2 : Nat) (l : List Nat),
    l.length < f1 → l.length < f2 → utf8DecodeGo f1 l = utf8DecodeGo f2 l := by
  induction f1 with
  | zero => intro f2 l h1 _; omega
  | succ f1 ih =>
    intro f2 l h1 h2
    cases f2 with
    | zero => omega
    | succ f2 =>
      rw [utf8DecodeGo.eq_def, utf8DecodeGo.eq_def]
      simp only
      cases l with
      | nil => rfl
      | cons b0 rest =>
        simp only
        cases hone : utf8DecodeOne (b0 :: rest) with
        | none => rfl
        | some pr =>
          obtain ⟨n, r⟩ := pr
          have hr : r.length < (b0 :: rest).length :=
            utf8DecodeOne_shrinks _ _ _ hone
          simp only [List.length_cons] at h1 h2 hr
          simp only
          rw [ih f2 r (by omega) (by omega)]

theorem utf8Decode_unfold (l : List Nat) :
    utf8Decode l =
      match l with
      | [] => some []
      | b0 :: rest =>
        match utf8DecodeOne (b0 :: rest) with
        | some (n, r) =>
          match utf8Decode r with
          | some cs => some (Char.ofNat n :: cs)
          | none => none
        | none => none := by
  rw [utf8Decode, utf8DecodeGo.eq_def]
  simp only
  cases l with
  | nil => rfl
  | cons b0 rest =>
    simp only
    cases hone : utf8DecodeOne (b0 :: rest) with
    | none => rfl
    | some pr =>
      obtain ⟨n, r⟩ := pr
      have hr : r.length < (b0 :: rest).length :=
        utf8DecodeOne_shrinks _ _ _ hone
      simp only [List.length_cons] at hr
      simp only
      rw [show utf8Decode r = utf8DecodeGo (r.length + 1) r from rfl]
      rw [utf8DecodeGo_congr ((b0 :: rest).length) (r.length + 1) r
        (by simp only [List.length_cons]; omega) (by omega)]

theorem utf8DecodeOne_encodeChar (c : Char) (t : List Nat) :
    utf8DecodeOne (utf8EncodeChar c ++ t) = some (c.toNat, t) := by
  have hv : c.toNat < 0xd800 ∨ (0xdfff < c.toNat ∧ c.toNat < 0x110000) := c.valid
  by_cases h1 : c.toNat < 0x80
  · have henc : utf8EncodeChar c = [c.toNat] := by
      rw [utf8EncodeChar, if_pos h1]
    rw [henc, List.cons_append, List.nil_append, utf8DecodeOne.eq_def]
    simp only
    rw [if_pos h1]
  · by_cases h2 : c.toNat < 0x800
    · have henc : utf8EncodeChar c = [0xC0 + c.toNat / 64, 0x80 + c.toNat % 64] := by
        rw [utf8EncodeChar, if_neg h1, if_pos h2]
      have hm : c.toNat % 64 < 64 := by omega
      have hd : 2 ≤ c.toNat / 64 ∧ c.toNat / 64 < 32 := by omega
      rw [henc, List.cons_append, List.cons_append, List.nil_append,
        utf8DecodeOne.eq_def]
      simp only
      rw [if_neg (by omega), if_neg (by omega), if_pos (by omega)]
      rw [if_pos (by
        refine ⟨by simp only [isCont, decide_eq_true_eq]; omega, by omega⟩)]
      simp only [Option.some.injEq, Prod.mk.injEq]
      exact ⟨by omega, trivial⟩
    · by_cases h3 : c.toNat < 0x10000
      · have henc : utf8EncodeChar c =
            [0xE0 + c.toNat / 4096, 0x80 + c.toNat / 64 % 64, 0x80 + c.toNat % 64] := by
          rw [utf8EncodeChar, if_neg h1, if_neg h2, if_pos h3]
        have hm1 : c.toNat / 64 % 64 < 64 := by omega
        have hm2 : c.toNat % 64 < 64 := by omega
        have hd : c.toNat / 4096 < 16 := by omega
        have hd2 : 0x800 ≤ c.toNat := by omega
        have hrec : (0xE0 + c.toNat / 4096 - 0xE0) * 4096 +
            (0x80 + c.toNat / 64 % 64 - 0x80) * 64 + (0x80 + c.toNat % 64 - 0x80)
            = c.toNat := by omega
        rw [henc, List.cons_append, List.cons_append, List.cons_append,
          List.nil_append, utf8DecodeOne.eq_def]
        simp only
        rw [if_neg (by omega), if_neg (by omega), if_neg (by omega),
          if_pos (by omega)]
        rw [if_pos (by
          refine ⟨by simp only [isCont, decide_eq_true_eq]; omega,
            by simp only [isCont, decide_eq_true_eq]; omega, ?_, ?_⟩
          · rw [hrec]
            omega
          · rw [hrec]
            omega)]
        simp only [Option.some.injEq, Prod.mk.injEq]
        exact ⟨by omega, trivial⟩
      · have henc : utf8EncodeChar c =
            [0xF0 + c.toNat / 262144, 0x80 + c.toNat / 4096 % 64,
             0x80 + c.toNat / 64 % 64, 0x80 + c.toNat % 64] := by
          rw [utf8EncodeChar, if_neg h1, if_neg h2, if_neg h3]
        have hm0 : c.toNat / 4096 % 64 < 64 := by omega
        have hm1 : c.toNat / 64 % 64 < 64 := by omega
        have hm2 : c.toNat % 64 < 64 := by omega
        have hup : c.toNat < 0x110000 := by omega
        have hlo : 0x10000 ≤ c.toNat := by omega
        have hd : c.toNat / 262144 < 5 := by omega
        have hrec : (0xF0 + c.toNat / 262144 - 0xF0) * 262144 +
            (0x80 + c.toNat / 4096 % 64 - 0x80) * 4096 +
            (0x80 + c.toNat / 64 % 64 - 0x80) * 64 + (0x80 + c.toNat % 64 - 0x80)
            = c.toNat := by omega
        rw [henc, List.cons_append, List.cons_append, List.cons_append,
          List.cons_append, List.nil_append, utf8DecodeOne.eq_def]
        simp only
        rw [if_neg (by omega), if_neg (by omega), if_neg (by omega),
          if_neg (by omega), if_pos (by omega)]
        rw [if_pos (by
          refine ⟨by simp only [isCont, decide_eq_true_eq]; omega,
            by simp only [isCont, decide_eq_true_eq]; omega,
            by simp only [isCont, decide_eq_true_eq]; omega, ?_, ?_⟩
          · rw [hrec]
            omega
          · rw [hrec]
            omega)]
        simp only [Option.some.injEq, Prod.mk.injEq]
        exact ⟨by omega, trivial⟩

theorem utf8EncodeChar_ne_nil (c : Char) : utf8EncodeChar c ≠ [] := by
  rw [utf8EncodeChar]
  by_cases h1 : c.toNat < 0x80
  · simp [h1]
  · by_cases h2 : c.toNat < 0x800
    · simp [h1, h2]
    · by_cases h3 : c.toNat < 0x10000
      · simp [h1, h2, h3]
      · simp [h1, h2, h3]

theorem utf8Decode_encodeChar (c : Char) (t : List Nat) :
    utf8Decode (utf8EncodeChar c ++ t) = (utf8Decode t).map (fun cs => c :: cs) := by
  have hne : utf8EncodeChar c ≠ [] := utf8EncodeChar_ne_nil c
  obtain ⟨b0, rest, hcons⟩ : ∃ b0 rest, utf8EncodeChar c ++ t = b0 :: rest := by
    cases henc : utf8EncodeChar c with
    | nil => exact absurd henc hne
    | cons x xs => exact ⟨x, xs ++ t, by simp⟩
  rw [hcons, utf8Decode_unfold]
  simp only
  have hone : utf8DecodeOne (b0 :: rest) = some (c.toNat, t) := by
    rw [← hcons]
    exact utf8DecodeOne_encodeChar c t
  rw [hone]
  simp only
  rw [Char.ofNat_toNat]
  cases utf8Decode t <;> simp

theorem utf8Decode_utf8Encode (s : List Char) :
    utf8Decode (utf8Encode s) = some s := by
  induction s with
  | nil =>
    show utf8Decode [] = some []
    rfl
  | cons c cs ih =>
    have hsplit : utf8Encode (c :: cs) = utf8EncodeChar c ++ utf8Encode cs := by
      simp [utf8Encode]
    rw [hsplit, utf8Decode_encodeChar, ih]
    rfl

theorem pad_bytes (data : List Nat) (h : ∀ x ∈ data, x < 256) :
    ∀ x ∈ pad data, x < 256 := by
  intro x hx
  rw [pad] at hx
  simp only [List.mem_append] at hx
  rcases hx with h1 | h1
  · exact h x h1
  · have := List.eq_of_mem_replicate h1
    have hlt : data.length % blockSize < blockSize := Nat.mod_lt _ (by decide)
    simp only [blockSize] at *
    omega

theorem flatten_length_mod (bs : List (List Nat))
    (h : ∀ b ∈ bs, b.length = blockSize) : bs.flatten.length % blockSize = 0 := by
  induction bs with
  | nil => simp
  | cons b rest ih =>
    rw [List.flatten_cons, List.length_append]
    rw [h b (by simp)]
    have := ih (fun q hq => h q (by simp [hq]))
    simp only [blockSize] at *
    omega

theorem crypto_op_roundtrip_aux (E D : List Nat → List Nat)
    (hElen : ∀ b, (E b).length = blockSize)
    (hEb : ∀ b, ∀ x ∈ E b, x < 256)
    (hD : ∀ b, b.length = blockSize → (∀ x ∈ b, x < 256) → D (E b) = b)
    (iv : List Nat) (hivlen : iv.length = blockSize) (hivb : ∀ x ∈ iv, x < 256)
    (s : List Char) :
    crypto_op_decrypt D iv (crypto_op_encrypt E iv s) = some s := by
  have hpb : ∀ x ∈ pad (utf8Encode s), x < 256 :=
    pad_bytes _ (utf8Encode_bytes s)
  have hpm : (pad (utf8Encode s)).length % blockSize = 0 := pad_length_mod _
  have hblocks : ∀ p ∈ toBlocks (pad (utf8Encode s)),
      p.length = blockSize ∧ ∀ x ∈ p, x < 256 := by
    intro p hp
    exact ⟨toBlocks_length _ hpm p hp, toBlocks_bytes _ hpb p hp⟩
  have hctprops := cbcEncrypt_blocks_props E hElen hEb
    (toBlocks (pad (utf8Encode s))) iv
  have hctlen : ∀ b ∈ cbcEncryptBlocks E iv (toBlocks (pad (utf8Encode s))),
      b.length = blockSize := fun b hb => (hctprops b hb).1
  have hctbytes : ∀ x ∈ (cbcEncryptBlocks E iv (toBlocks (pad (utf8Encode s)))).flatten,
      x < 256 := by
    intro x hx
    rw [List.mem_flatten] at hx
    obtain ⟨b, hb, hxb⟩ := hx
    exact (hctprops b hb).2 x hxb
  rw [crypto_op_encrypt, crypto_op_decrypt]
  rw [b64decode_encode _ hctbytes]
  simp only
  rw [if_pos (flatten_length_mod _ hctlen)]
  rw [toBlocks_flatten _ hctlen]
  rw [cbcDecrypt_cbcEncrypt E D hElen hEb hD _ iv hivlen hivb hblocks]
  rw [flatten_toBlocks, unpad_pad]
  exact utf8Decode_utf8Encode s

/-- Claim C2: for every non-empty plaintext string and for both keysets
(`playlist` and `entitlement` share the iv `b"theExact16Chars="` and differ
only in their fixed AES key, abstracted as the block permutation `E`/`D`
with `D` inverting `E` on 16-byte blocks), decrypting the result of
encrypting the plaintext under that keyset returns the original plaintext. -/
theorem crypto_op_roundtrip (E D : List Nat → List Nat)
    (hElen : ∀ b, (E b).length = blockSize)
    (hEb : ∀ b, ∀ x ∈ E b, x < 256)
    (hD : ∀ b, b.length = blockSize → (∀ x ∈ b, x < 256) → D (E b) = b)
    (s : List Char) (hs : s ≠ []) :
    crypto_op_decrypt D ivBytes (crypto_op_encrypt E ivBytes s) = some s := by
  have hivlen : ivBytes.length = blockSize := by decide
  have hivb : ∀ x ∈ ivBytes, x < 256 := by decide
  exact crypto_op_roundtrip_aux E D hElen hEb hD ivBytes hivlen hivb s

theorem crypto_op_roundtrip_witness :
    crypto_op_decrypt cryptoD0 ivBytes
      (crypto_op_encrypt cryptoE0 ivBytes (('h' : Char) :: ['i'])) =
      some (('h' : Char) :: ['i']) := by
  refine crypto_op_roundtrip cryptoE0 cryptoD0 ?_ ?_ ?_ (('h' : Char) :: ['i'])
    (by simp)
  · intro b
    simp only [cryptoE0, List.length_take, List.length_append, List.length_map,
      List.length_replicate, blockSize]
    omega
  · intro b x hx
    rw [cryptoE0] at hx
    have hx' := List.mem_of_mem_take hx
    rcases List.mem_append.mp hx' with h | h
    · obtain ⟨y, _, rfl⟩ := List.mem_map.mp h
      exact Nat.mod_lt _ (by omega)
    · rw [List.eq_of_mem_replicate h]
      omega
  · intro b hlen hb
    rw [cryptoD0, cryptoE0]
    have hmap : b.map (fun x => x % 256) = b := by
      conv_rhs => rw [← List.map_id b]
      refine List.map_congr_left ?_
      intro x hx
      have := hb x hx
      simp
      omega
    rw [hmap]
    rw [List.take_left' hlen]

/-- Claim C3: `crypto_op` in decrypt mode returns the typed failure `None`
whenever base64 decoding fails or unpadding fails, and it returns a plaintext
only when every stage (base64 decode, full-block length check, CBC decrypt,
PKCS#7 unpad, UTF-8 decode) succeeded — never a partial or garbled
intermediate value. -/
theorem crypto_op_decrypt_typed_failure (D : List Nat → List Nat) (iv : List Nat)
    (s : List Char) :
    (b64decode s = none → crypto_op_decrypt D iv s = none) ∧
    (∀ bytes, b64decode s = some bytes →
      unpad (cbcDecryptBlocks D iv (toBlocks bytes)).flatten = none →
      crypto_op_decrypt D iv s = none) ∧
    (∀ p, crypto_op_decrypt D iv s = some p →
      ∃ bytes padded, b64decode s = some bytes ∧
        bytes.length % blockSize = 0 ∧
        unpad (cbcDecryptBlocks D iv (toBlocks bytes)).flatten = some padded ∧
        utf8Decode padded = some p) := by
  refine ⟨?_, ?_, ?_⟩
  · intro h
    rw [crypto_op_decrypt, h]
  · intro bytes hb hu
    rw [crypto_op_decrypt, hb]
    simp only
    by_cases hlen : bytes.length % blockSize = 0
    · rw [if_pos hlen, hu]
    · rw [if_neg hlen]
  · intro p hp
    rw [crypto_op_decrypt] at hp
    cases hb : b64decode s with
    | none => rw [hb] at hp; exact absurd hp (by simp)
    | some bytes =>
      rw [hb] at hp
      simp only at hp
      by_cases hlen : bytes.length % blockSize = 0
      · rw [if_pos hlen] at hp
        cases hu : unpad (cbcDecryptBlocks D iv (toBlocks bytes)).flatten with
        | none => rw [hu] at hp; exact absurd hp (by simp)
        | some padded =>
          rw [hu] at hp
          exact ⟨bytes, padded, rfl, hlen, hu, hp⟩
      · rw [if_neg hlen] at hp
        exact absurd hp (by simp)

theorem crypto_op_decrypt_typed_failure_witness :
    crypto_op_decrypt cryptoD0 ivZero (('A' : Char) :: ['A', 'A', 'A', 'A']) = none ∧
    crypto_op_decrypt cryptoD0 ivZero (b64EncodeBytes (List.replicate 16 0)) = none ∧
    (∃ bytes padded,
      b64decode (crypto_op_encrypt cryptoE0 ivZero [('A' : Char)]) = some bytes ∧
      bytes.length % blockSize = 0 ∧
      unpad (cbcDecryptBlocks cryptoD0 ivZero (toBlocks bytes)).flatten = some padded ∧
      utf8Decode padded = some [('A' : Char)]) :=
  ⟨(crypto_op_decrypt_typed_failure cryptoD0 ivZero _).1 (by decide),
   (crypto_op_decrypt_typed_failure cryptoD0 ivZero _).2.1
     (List.replicate 16 0) (by decide) (by decide),
   (crypto_op_decrypt_typed_failure cryptoD0 ivZero _).2.2 [('A' : Char)] (by decide)⟩

/-- Claim C1 counterexample: with the playlist stage succeeding (the same
playlist plaintext from which the resolver extracts
`https://cdn.example/stream.m3u8`), an entitlement response that decrypts
successfully to the non-JSON payload `oops` makes the resolver return *no*
URL (`None`, from the `except` handler), not the unticketed playlist URL. -/
theorem entitlement_parse_failure_returns_none :
    get_video_url_tail (some plC) (some none) = some hlsC ∧
    get_video_url_tail (some plC) (some (some junkC)) = none := by
  constructor <;> decide

/-- Claim C1 (amended): after a playlist URL is obtained, a failed
entitlement POST and a failed entitlement *decryption* both degrade to the
unticketed playlist URL, but when decryption succeeds and parsing the
decrypted payload as JSON fails, `json.loads` raises into the
`except` handler and the resolver returns `None` (no URL). -/
theorem get_video_url_entitlement_degrade (pl hls ent : List Char)
    (hhls : hlsOf pl = some hls) (hparse : parseJson ent = none) :
    get_video_url_tail (some pl) none = some hls ∧
    get_video_url_tail (some pl) (some none) = some hls ∧
    get_video_url_tail (some pl) (some (some ent)) = none := by
  refine ⟨?_, ?_, ?_⟩ <;>
    simp [get_video_url_tail, hhls, hparse]

theorem get_video_url_entitlement_degrade_witness :
    get_video_url_tail (some plC) none = some hlsC ∧
    get_video_url_tail (some plC) (some none) = some hlsC ∧
    get_video_url_tail (some plC) (some (some junkC)) = none :=
  get_video_url_entitlement_degrade plC hlsC junkC (by decide) (by rfl)

/-- Claim C8: when the entitlement stage yields a ticket it is appended to
the playlist URL with `&` when the URL already contains `?`, else with `?`;
with no ticket the unticketed URL is returned; and on the fixed playlist
plaintext `{"media":[{"url":"https://cdn.example/stream.m3u8"}]}` and
entitlement plaintext `{"tickets":[{"ticket":"tkt=abc123"}]}` the resolver
returns `https://cdn.example/stream.m3u8?tkt=abc123` (the concrete `&` case
is also evaluated on a playlist URL that already has a query string). -/
theorem ticket_assembly :
    (∀ pl hls ent entD, hlsOf pl = some hls → parseJson ent = some entD →
      ticketOf entD = TicketRes.noTicket →
      get_video_url_tail (some pl) (some (some ent)) = some hls) ∧
    (∀ pl hls ent entD t, hlsOf pl = some hls → parseJson ent = some entD →
      ticketOf entD = TicketRes.ticket t →
      get_video_url_tail (some pl) (some (some ent)) = some (appendTicket hls t) ∧
      appendTicket hls t = hls ++ (if hls.contains '?' then '&' :: t else '?' :: t)) ∧
    get_video_url_tail (some plC) (some (some entC)) = some resC ∧
    get_video_url_tail (some plQ) (some (some entC)) =
      some (("https://cdn.example/a.m3u8?x=1&tkt=abc123").toList) := by
  refine ⟨?_, ?_, by decide, by decide⟩
  · intro pl hls ent entD hhls hparse htick
    simp [get_video_url_tail, hhls, hparse, htick]
  · intro pl hls ent entD t hhls hparse htick
    constructor
    · simp [get_video_url_tail, hhls, hparse, htick]
    · rfl

theorem ticket_assembly_witness :
    get_video_url_tail (some plC) (some (some entNoT)) = some hlsC ∧
    get_video_url_tail (some plQ) (some (some entC)) = some (appendTicket hlsQ tktC) :=
  ⟨ticket_assembly.1 plC hlsC entNoT entNoTD (by rfl) (by rfl) (by rfl),
   (ticket_assembly.2.1 plQ hlsQ entC entD1 tktC (by rfl) (by rfl) (by rfl)).1⟩

/-- Claim C6 evaluation at the failing input: an `episodes` element with
`href="/x?foo=bar"` and a title.  The primary regex `/VOD-([\w-]+)\.htm` does
not match, but `extract_content` then stores the *raw href* as the item's
`guid` (line 272 `if value: item[field] = value` runs with the unmatched
value), so the item is accepted, skips the fallback (it already has a
`guid`), survives the `'guid' in ep` filter, and appears in the result —
contradicting the claim (and §3's invariant) that such an episode is
excluded.  The fallback/exclusion post-pass is unreachable: an accepted
episode item always carries a `guid`. -/
theorem episode_raw_href_guid_eval :
    extract_content_items ContentType.episodes baseC [epElemC] = [epItemC] ∧
    epItemC.guid = some (("/x?foo=bar").toList) ∧
    vodGuidSearch (("/x?foo=bar").toList) = none := by
  refine ⟨by decide, by decide, by decide⟩

theorem guidKey_renameIf (ct : ContentType) (it : Item) :
    guidKey (renameIf ct it) = guidKey it := by
  rw [renameIf]
  by_cases h : ct = ContentType.shows
  · rw [if_pos h]
    rfl
  · rw [if_neg h]

theorem candidates_cons (ct : ContentType) (base : List Char) (e : Elem)
    (rest : List Elem) :
    candidates ct base (e :: rest) =
      if acceptItem ct (extractFields ct base e) then
        renameIf ct (extractFields ct base e) :: candidates ct base rest
      else candidates ct base rest := by
  rw [candidates, List.map_cons, List.filter_cons]
  by_cases h : acceptItem ct (extractFields ct base e)
  · rw [if_pos h, if_pos h, List.map_cons]
    rfl
  · rw [if_neg (by simpa using h), if_neg h]
    rfl

theorem buildLoop_filter_key (ct : ContentType) (base : List Char)
    (k : List Char) (hk : k ≠ []) :
    ∀ (elems : List Elem) (seen : List (List Char)),
      (buildLoop ct base elems seen).filter (fun it => guidKey it = k) =
        if k ∈ seen then []
        else ((candidates ct base elems).filter (fun it => guidKey it = k)).take 1 := by
  intro elems
  induction elems with
  | nil =>
    intro seen
    simp [buildLoop, candidates]
  | cons e rest ih =>
    intro seen
    simp only [buildLoop]
    rw [candidates_cons]
    by_cases hacc : acceptItem ct (extractFields ct base e) = true
    · rw [if_pos hacc, if_pos hacc]
      rw [show (if ct = ContentType.shows then renameShow (extractFields ct base e)
          else extractFields ct base e) = renameIf ct (extractFields ct base e)
        from rfl]
      by_cases hcond : (!(guidKey (extractFields ct base e)).isEmpty &&
          !seen.contains (guidKey (extractFields ct base e))) = true
      · rw [if_pos hcond]
        have hnotin : guidKey (extractFields ct base e) ∉ seen := by
          intro hc
          simp [hc] at hcond
        rw [List.filter_cons]
        by_cases hkey : guidKey (extractFields ct base e) = k
        · rw [if_pos (by simp [guidKey_renameIf, hkey])]
          rw [ih (guidKey (extractFields ct base e) :: seen)]
          rw [if_pos (by simp [hkey])]
          have hkin : k ∉ seen := fun hc => hnotin (by rw [hkey]; exact hc)
          rw [if_neg hkin]
          rw [List.filter_cons, if_pos (by simp [guidKey_renameIf, hkey])]
          rfl
        · rw [if_neg (by simp [guidKey_renameIf, hkey])]
          rw [ih (guidKey (extractFields ct base e) :: seen)]
          have hmem : (k ∈ guidKey (extractFields ct base e) :: seen) ↔ k ∈ seen := by
            constructor
            · intro h
              rcases List.mem_cons.mp h with h1 | h1
              · exact absurd h1.symm hkey
              · exact h1
            · intro h
              exact List.mem_cons_of_mem _ h
          by_cases hkin : k ∈ seen
          · rw [if_pos (hmem.mpr hkin), if_pos hkin]
          · rw [if_neg (fun hc => hkin (hmem.mp hc)), if_neg hkin]
            rw [List.filter_cons, if_neg (by simp [guidKey_renameIf, hkey])]
      · rw [if_neg hcond]
        rw [ih seen]
        by_cases hkey : guidKey (extractFields ct base e) = k
        · have hin : guidKey (extractFields ct base e) ∈ seen := by
            by_contra hc
            apply hcond
            have hkne : (guidKey (extractFields ct base e)).isEmpty = false := by
              rw [hkey]
              cases k with
              | nil => exact absurd rfl hk
              | cons a as => rfl
            simp [hkne, hc]
          have hkin : k ∈ seen := hkey ▸ hin
          rw [if_pos hkin, if_pos hkin]
        · by_cases hkin : k ∈ seen
          · rw [if_pos hkin, if_pos hkin]
          · rw [if_neg hkin, if_neg hkin]
            rw [List.filter_cons, if_neg (by simp [guidKey_renameIf, hkey])]
    · rw [if_neg hacc, if_neg hacc]
      exact ih seen

theorem buildLoop_episodes_guid (base : List Char) :
    ∀ (elems : List Elem) (seen : List (List Char)),
      ∀ it ∈ buildLoop ContentType.episodes base elems seen, it.guid.isSome := by
  intro elems
  induction elems with
  | nil =>
    intro seen it hit
    simp [buildLoop] at hit
  | cons e rest ih =>
    intro seen it hit
    simp only [buildLoop] at hit
    by_cases hacc : acceptItem ContentType.episodes (extractFields ContentType.episodes base e) = true
    · rw [if_pos hacc] at hit
      by_cases hcond : (!(guidKey (extractFields ContentType.episodes base e)).isEmpty &&
          !seen.contains (guidKey (extractFields ContentType.episodes base e))) = true
      · rw [if_pos hcond] at hit
        rcases List.mem_cons.mp hit with h1 | h1
        · rw [acceptItem] at hacc
          have hfc : fieldCount ContentType.episodes
              (extractFields ContentType.episodes base e) = 3 := by
            simp [numFields] at hacc
            exact hacc
          rw [fieldCount] at hfc
          subst h1
          rw [if_neg (by decide : ¬ ContentType.episodes = ContentType.shows)]
          by_cases hg : (extractFields ContentType.episodes base e).guid.isSome
          · exact hg
          · rw [Bool.not_eq_true] at hg
            rw [hg] at hfc
            by_cases h1 : (extractFields ContentType.episodes base e).name.isSome <;>
              by_cases h2 : (extractFields ContentType.episodes base e).url.isSome <;>
                simp [h1, h2] at hfc
        · exact ih _ it h1
      · rw [if_neg hcond] at hit
        exact ih _ it hit
    · rw [if_neg hacc] at hit
      exact ih _ it hit

theorem episodesPostPass_id (items : List Item)
    (h : ∀ it ∈ items, it.guid.isSome) : episodesPostPass items = items := by
  induction items with
  | nil => rfl
  | cons it rest ih =>
    obtain ⟨g, hg⟩ := Option.isSome_iff_exists.mp (h it (by simp))
    have hfb : guidFallbackItem it = it := by
      rw [guidFallbackItem, hg]
    rw [episodesPostPass, List.map_cons, List.filter_cons, hfb]
    rw [if_pos (by simp [hg])]
    have := ih (fun q hq => h q (by simp [hq]))
    rw [episodesPostPass] at this
    rw [this]

theorem extract_episodes_eq (base : List Char) (elems : List Elem) :
    extract_content_items ContentType.episodes base elems =
      buildLoop ContentType.episodes base elems [] := by
  simp only [extract_content_items, if_true]
  exact episodesPostPass_id _ (buildLoop_episodes_guid base elems [])

/-- Claim C7: for every extracted item list, the deduplication key is the
item's `guid` when present, else its `url` (that is `guidKey`); the first
occurrence of each key is kept and every later item with the same key is
silently dropped: restricted to any nonempty key `k`, `extract_content`'s
output is exactly the first accepted candidate with key `k`. -/
theorem dedup_first_occurrence (ct : ContentType) (base : List Char)
    (elems : List Elem) (k : List Char) (hk : k ≠ []) :
    (extract_content_items ct base elems).filter (fun it => guidKey it = k) =
      ((candidates ct base elems).filter (fun it => guidKey it = k)).take 1 := by
  have h := buildLoop_filter_key ct base k hk elems []
  rw [if_neg (by simp)] at h
  cases ct with
  | episodes =>
    rw [extract_episodes_eq]
    exact h
  | shows =>
    simp [extract_content_items]
    exact h
  | seasons =>
    simp [extract_content_items]
    exact h

theorem dedup_first_occurrence_witness :
    (extract_content_items ContentType.episodes baseC [epElemC, epElemC2]).filter
        (fun it => guidKey it = ("/x?foo=bar").toList) =
      ((candidates ContentType.episodes baseC [epElemC, epElemC2]).filter
        (fun it => guidKey it = ("/x?foo=bar").toList)).take 1 :=
  dedup_first_occurrence ContentType.episodes baseC [epElemC, epElemC2]
    (("/x?foo=bar").toList) (by decide)

/-- Claim C4 counterexample: bypass mode (`skip_name_fetch`) with a 40-day-old
cache.  The URL is present in the cache with a real name, yet the cached name
is NOT applied (the skip branch at lines 296-302 only copies names `if
cache_is_fresh`), so the show keeps its placeholder name — refuting
"regardless of whether the cache's global timestamp is within the 30-day
freshness window". -/
theorem skip_mode_stale_cache_not_applied :
    lookupShow uC staleCacheC.shows = some realC ∧
    cache_is_fresh (40 * 24 * 60 * 60) staleCacheC.timestamp = false ∧
    resolveShowNames fetchNone (40 * 24 * 60 * 60) staleCacheC true none
      [{ url := uC, name := unkC }] = ([{ url := uC, name := unkC }], []) ∧
    unkC ≠ realC := by
  refine ⟨by decide, by decide, by decide, by decide⟩

/-- Claim C4 (amended): in bypass mode no name fetch is ever issued, and
cached names are applied to the shows whose URL is in the cache only when
the cache's timestamp passes the 30-day freshness test; with a stale cache
the items are returned unchanged. -/
theorem skip_mode_no_fetch (fetch : List Char → Option (List Char)) (now : Int)
    (cache : NameCache) (ms : Option Int) (items : List ShowItem) :
    (resolveShowNames fetch now cache true ms items).2 = [] ∧
    (resolveShowNames fetch now cache true ms items).1 =
      (if cache_is_fresh now cache.timestamp then applyCached cache.shows items
       else items) := by
  constructor <;> simp [resolveShowNames]

theorem processLoop_urls (fetch : List Char → Option (List Char)) (fresh : Bool) :
    ∀ (l : List ShowItem) (m : List (List Char × List Char)),
      (processLoop fetch fresh l m).1.map ShowItem.url = l.map ShowItem.url := by
  intro l
  induction l with
  | nil => intro m; rfl
  | cons s rest ih =>
    intro m
    simp only [processLoop]
    split
    · simp [ih]
    · split <;> simp [ih]

theorem processLoop_fetched_sub (fetch : List Char → Option (List Char))
    (fresh : Bool) :
    ∀ (l : List ShowItem) (m : List (List Char × List Char)) (u : List Char),
      u ∈ (processLoop fetch fresh l m).2.2 → u ∈ l.map ShowItem.url := by
  intro l
  induction l with
  | nil =>
    intro m u hu
    simp [processLoop] at hu
  | cons s rest ih =>
    intro m u hu
    simp only [processLoop] at hu
    split at hu
    · simp only [List.map_cons]
      exact List.mem_cons_of_mem _ (ih m u hu)
    · split at hu <;>
      · simp only at hu
        rcases List.mem_cons.mp hu with h1 | h1
        · simp [h1]
        · exact List.mem_cons_of_mem _ (ih _ u h1)

theorem processLoop_stale_fetched (fetch : List Char → Option (List Char)) :
    ∀ (l : List ShowItem) (m : List (List Char × List Char)),
      (processLoop fetch false l m).2.2 = l.map ShowItem.url := by
  intro l
  induction l with
  | nil => intro m; rfl
  | cons s rest ih =>
    intro m
    simp only [processLoop]
    split
    · rename_i n hn
      simp at hn
    · split <;> simp [ih]

theorem mergeBack_mem (p : ShowItem → Bool) :
    ∀ (l proc : List ShowItem) (it : ShowItem),
      it ∈ mergeBack p l proc → it ∈ l ∨ it ∈ proc := by
  intro l
  induction l with
  | nil =>
    intro proc it hit
    simp [mergeBack] at hit
  | cons a rest ih =>
    intro proc it hit
    simp only [mergeBack] at hit
    by_cases hp : p a = true
    · rw [if_pos hp] at hit
      cases proc with
      | nil =>
        rcases List.mem_cons.mp hit with h1 | h1
        · exact Or.inl (by simp [h1])
        · rcases ih [] it h1 with h2 | h2
          · exact Or.inl (List.mem_cons_of_mem _ h2)
          · simp at h2
      | cons pr prRest =>
        rcases List.mem_cons.mp hit with h1 | h1
        · exact Or.inr (by simp [h1])
        · rcases ih prRest it h1 with h2 | h2
          · exact Or.inl (List.mem_cons_of_mem _ h2)
          · exact Or.inr (List.mem_cons_of_mem _ h2)
    · rw [if_neg hp] at hit
      rcases List.mem_cons.mp hit with h1 | h1
      · exact Or.inl (by simp [h1])
      · rcases ih proc it h1 with h2 | h2
        · exact Or.inl (List.mem_cons_of_mem _ h2)
        · exact Or.inr h2

theorem applyCached_name (cs : List (List Char × List Char))
    (items : List ShowItem) :
    ∀ s ∈ applyCached cs items, ∀ nm, lookupShow s.url cs = some nm →
      s.name = nm := by
  intro s hs nm hnm
  rw [applyCached] at hs
  obtain ⟨a, ha, heq⟩ := List.mem_map.mp hs
  cases hl : lookupShow a.url cs with
  | some n =>
    rw [hl] at heq
    have heq2 : ({ a with name := n } : ShowItem) = s := heq
    rw [← heq2] at hnm ⊢
    have hnm2 : lookupShow a.url cs = some nm := hnm
    rw [hl] at hnm2
    show n = nm
    exact Option.some.inj hnm2
  | none =>
    rw [hl] at heq
    have heq2 : a = s := heq
    rw [← heq2] at hnm
    rw [hl] at hnm
    exact absurd hnm (by simp)

theorem shows_to_process_mem (l : List ShowItem) (ms : Option Int) :
    ∀ s ∈ shows_to_process l ms, s ∈ l := by
  intro s hs
  rw [shows_to_process.eq_def] at hs
  cases ms with
  | none => exact hs
  | some m =>
    simp only at hs
    split at hs
    · rw [pythonTake] at hs
      split at hs <;> exact List.mem_of_mem_take hs
    · exact hs

theorem resolveShowNames_fresh (fetch : List Char → Option (List Char))
    (now : Int) (cache : NameCache) (ms : Option Int) (items : List ShowItem)
    (hf : cache_is_fresh now cache.timestamp = true) :
    resolveShowNames fetch now cache false ms items =
      (mergeBack (fun s => !(lookupShow s.url cache.shows).isSome)
        (applyCached cache.shows items)
        (processLoop fetch true
          (shows_to_process
            ((applyCached cache.shows items).filter
              (fun s => !(lookupShow s.url cache.shows).isSome)) ms)
          cache.shows).1,
       (processLoop fetch true
         (shows_to_process
           ((applyCached cache.shows items).filter
             (fun s => !(lookupShow s.url cache.shows).isSome)) ms)
         cache.shows).2.2) := by
  simp [resolveShowNames, process_show_names, hf]

theorem resolveShowNames_stale (fetch : List Char → Option (List Char))
    (now : Int) (cache : NameCache) (ms : Option Int) (items : List ShowItem)
    (hf : cache_is_fresh now cache.timestamp = false) :
    resolveShowNames fetch now cache false ms items =
      (mergeBack (fun _ => true) items
        (processLoop fetch false (shows_to_process items ms) cache.shows).1,
       (processLoop fetch false (shows_to_process items ms) cache.shows).2.2) := by
  simp [resolveShowNames, process_show_names, hf]

set_option maxHeartbeats 2000000 in
/-- Claim C5: with bypass disabled, for a show URL `U` present in the cache:
with the cache timestamp 10 days old, the cache is fresh, the cached name is
applied to every item carrying `U` and no name fetch is issued for `U`;
with the timestamp 40 days old the cache is stale and (running uncapped, as
the claim's scenario fetches every show) a name fetch is issued for `U`. -/
theorem cache_ttl_decision (fetch : List Char → Option (List Char)) (now : Int)
    (U nm : List Char) (cacheShows : List (List Char × List Char))
    (items : List ShowItem) (ms : Option Int)
    (hU : lookupShow U cacheShows = some nm)
    (hmem : U ∈ items.map ShowItem.url) :
    cache_is_fresh now (now - 10 * 24 * 60 * 60) = true ∧
    (∀ s ∈ (resolveShowNames fetch now
        { timestamp := now - 10 * 24 * 60 * 60, shows := cacheShows }
        false ms items).1, s.url = U → s.name = nm) ∧
    U ∉ (resolveShowNames fetch now
        { timestamp := now - 10 * 24 * 60 * 60, shows := cacheShows }
        false ms items).2 ∧
    cache_is_fresh now (now - 40 * 24 * 60 * 60) = false ∧
    U ∈ (resolveShowNames fetch now
        { timestamp := now - 40 * 24 * 60 * 60, shows := cacheShows }
        false none items).2 := by
  have ht10 : cache_is_fresh now (now - 10 * 24 * 60 * 60) = true := by
    simp only [cache_is_fresh, CACHE_TTL, decide_eq_true_eq]
    omega
  have ht40 : cache_is_fresh now (now - 40 * 24 * 60 * 60) = false := by
    simp only [cache_is_fresh, CACHE_TTL]
    rw [decide_eq_false_iff_not]
    omega
  have hnotinToF : ∀ s, s ∈ (applyCached cacheShows items).filter
      (fun s => !(lookupShow s.url cacheShows).isSome) → s.url ≠ U := by
    intro s hsf hcontra
    have hpred := List.of_mem_filter hsf
    rw [hcontra, hU] at hpred
    simp at hpred
  refine ⟨ht10, ?_, ?_, ht40, ?_⟩
  · intro s hs hsu
    rw [resolveShowNames_fresh fetch now _ ms items ht10] at hs
    rcases mergeBack_mem _ _ _ _ hs with h1 | h1
    · exact applyCached_name cacheShows items s h1 nm (by rw [hsu]; exact hU)
    · have hurl : s.url ∈ ((processLoop fetch true
          (shows_to_process ((applyCached cacheShows items).filter
            (fun s => !(lookupShow s.url cacheShows).isSome)) ms)
          cacheShows).1).map ShowItem.url := List.mem_map_of_mem _ h1
      rw [processLoop_urls] at hurl
      obtain ⟨t, ht, htu⟩ := List.mem_map.mp hurl
      have htf := shows_to_process_mem _ ms t ht
      exact absurd (htu.trans hsu) (hnotinToF t htf)
  · intro hUf
    rw [resolveShowNames_fresh fetch now _ ms items ht10] at hUf
    have h2 := processLoop_fetched_sub fetch true _ _ _ hUf
    obtain ⟨t, ht, htu⟩ := List.mem_map.mp h2
    have htf := shows_to_process_mem _ ms t ht
    exact absurd htu (hnotinToF t htf)
  · rw [resolveShowNames_stale fetch now _ none items ht40]
    rw [show shows_to_process items none = items from rfl]
    rw [processLoop_stale_fetched]
    exact hmem

theorem cache_ttl_decision_witness :
    cache_is_fresh 10000000 (10000000 - 10 * 24 * 60 * 60) = true ∧
    (∀ s ∈ (resolveShowNames fetchNone 10000000
        { timestamp := 10000000 - 10 * 24 * 60 * 60, shows := [(uC, realC)] }
        false none [s0C]).1, s.url = uC → s.name = realC) ∧
    uC ∉ (resolveShowNames fetchNone 10000000
        { timestamp := 10000000 - 10 * 24 * 60 * 60, shows := [(uC, realC)] }
        false none [s0C]).2 ∧
    cache_is_fresh 10000000 (10000000 - 40 * 24 * 60 * 60) = false ∧
    uC ∈ (resolveShowNames fetchNone 10000000
        { timestamp := 10000000 - 40 * 24 * 60 * 60, shows := [(uC, realC)] }
        false none [s0C]).2 :=
  cache_ttl_decision fetchNone 10000000 uC realC [(uC, realC)] [s0C] none
    (by decide) (by decide)

/-- Claim C9 counterexample: a requested cap of `0` is falsy in Python
(`if max_shows and max_shows < len(shows)`), so the slice is never taken and
ALL shows are processed: on a one-show list the processed set has length 1,
not `min 0 1 = 0` — the cap is not "honored exactly" and more than
`max_shows` shows are processed. -/
theorem max_shows_zero_counterexample :
    shows_to_process [s0C] (some 0) = [s0C] ∧
    (shows_to_process [s0C] (some 0)).length = 1 ∧
    min (Int.toNat 0) [s0C].length = 0 := by
  refine ⟨by decide, by decide, by decide⟩

/-- Claim C9 (amended): for every *positive* cap `m`, `process_show_names`
processes exactly the first `min m (length)` shows of the to-fetch list in
stable input order — its processed output is in bijection (same URLs, same
order) with that prefix — and never more than `m` shows; a cap of `0` (or
`None`) disables capping instead. -/
theorem max_shows_cap (shows : List ShowItem) (m : Int) (hm : 0 < m) :
    shows_to_process shows (some m) = shows.take (min m.toNat shows.length) ∧
    (shows_to_process shows (some m)).length ≤ m.toNat ∧
    (∀ (fetch : List Char → Option (List Char)) (fresh : Bool)
        (cacheShows : List (List Char × List Char)),
      (process_show_names fetch shows cacheShows fresh (some m)).1.map
          ShowItem.url =
        (shows.take (min m.toNat shows.length)).map ShowItem.url) := by
  have heq : shows_to_process shows (some m) =
      shows.take (min m.toNat shows.length) := by
    rw [shows_to_process.eq_def]
    simp only
    by_cases hlt : m < (shows.length : Int)
    · rw [if_pos ⟨by omega, hlt⟩]
      rw [pythonTake, if_neg (by omega)]
      congr 1
      omega
    · rw [if_neg (by
        intro hc
        exact hlt hc.2)]
      have hge : shows.length ≤ m.toNat := by omega
      rw [min_eq_right hge, List.take_length]
  refine ⟨heq, ?_, ?_⟩
  · rw [heq, List.length_take]
    omega
  · intro fetch fresh cacheShows
    rw [process_show_names, processLoop_urls, heq]

theorem max_shows_cap_witness :
    shows_to_process [s0C, s1C, s2C] (some 2) =
      [s0C, s1C, s2C].take (min (Int.toNat 2) [s0C, s1C, s2C].length) :=
  (max_shows_cap [s0C, s1C, s2C] 2 (by decide)).1

/-- Claim C10: when the cache file is absent (`readResult = none`) or fails
to load (`readResult = some none`), `load_cache` returns an empty cache whose
timestamp is the load time; consequently, whenever the freshness test runs
within 30 days of that load (in particular in the same run), `now -
timestamp < 30 days` holds and the freshly created cache is fresh. -/
theorem load_cache_default_fresh (tload now : Int) (hle : tload ≤ now)
    (hwin : now - tload < CACHE_TTL) :
    load_cache none tload = { timestamp := tload, shows := [] } ∧
    load_cache (some none) tload = { timestamp := tload, shows := [] } ∧
    cache_is_fresh now (load_cache none tload).timestamp = true ∧
    cache_is_fresh now (load_cache (some none) tload).timestamp = true := by
  refine ⟨rfl, rfl, ?_, ?_⟩ <;>
  · simp only [load_cache, cache_is_fresh, decide_eq_true_eq]
    omega

theorem load_cache_default_fresh_witness :
    load_cache none 100 = { timestamp := 100, shows := [] } ∧
    load_cache (some none) 100 = { timestamp := 100, shows := [] } ∧
    cache_is_fresh 200 (load_cache none 100).timestamp = true ∧
    cache_is_fresh 200 (load_cache (some none) 100).timestamp = true :=
  load_cache_default_fresh 100 200 (by decide) (by decide)

end Mako
